import Mathlib

/-!
Shallow embedding of the directory-tree reconstruction and rendering engine of
the nanobanana-api-mcp repository: the plain formatter (`tree-formatter.ts`:
`buildTree`, `addNestedNode`, `formatNode`, `formatTree`) and the enhanced
formatter (`enhanced-tree-formatter.ts`: `formatSize`, `matchesExtFilter`,
`buildEnhancedTree`, `addNestedEnhancedNode`, `calculateStats`,
`calculateDirSize`, `countDirFiles`, `formatEnhancedNode`, `formatStats`,
`formatSubTree`) together with the path normalizer (`path-utils.ts`).

Modelling conventions:
- TypeScript strings are Lean `String`s; all string manipulation is done on the
  underlying `List Char` so that every definition reduces in the kernel.
  JavaScript string indices are UTF-16 code-unit indices; we use `Char`
  (codepoint) indices, which agree on all inputs without astral-plane
  characters.
- `localeCompare` is modelled as lexicographic comparison by codepoint
  (`lexLeB`); `Array.prototype.sort` (a stable comparison sort) is modelled by
  `List.insertionSort` (also stable), which produces the same result for any
  consistent comparator.
- JavaScript `Map` (insertion-ordered) is modelled by an insertion-ordered
  list of nodes; in-place mutation of a node fetched from the map is modelled
  by replacing the node at its position.
- `(x / d).toFixed(1)` on non-negative integers `x` is modelled by exact
  rational rounding to one decimal digit, half away from zero (`toFixed1`).
  JavaScript computes the quotient in binary floating point first; the two
  agree except possibly at representation-boundary ties, which the spec
  declares non-load-bearing.
- Optional / possibly-`undefined` values are modelled by `Option`; the
  truthiness tests `if (options.showSize)` and `options.showStats !== false`
  become `= some true` and `≠ some false` respectively.
-/

/-! ### Character-list string primitives -/

/-- Lexicographic codepoint comparison on character lists; models the sign of
JavaScript `localeCompare` restricted to codepoint ordering (which the spec
declares sufficient for conformance). -/
def lexLeB : List Char → List Char → Bool
  | [], _ => true
  | _ :: _, [] => false
  | a :: as, b :: bs => if a = b then lexLeB as bs else decide (a < b)

/-- `s.startsWith pre` on JavaScript strings. -/
def strStartsWith (s pre : String) : Bool :=
  pre.data.isPrefixOf s.data

/-- `s.endsWith post` on JavaScript strings. -/
def strEndsWith (s post : String) : Bool :=
  post.data.isSuffixOf s.data

/-- `s.substring n` on JavaScript strings (drop the first `n` code units). -/
def strDrop (s : String) (n : Nat) : String :=
  String.mk (s.data.drop n)

/-- `s.length` on JavaScript strings (code-unit count). -/
def strLen (s : String) : Nat := s.data.length

/-- JavaScript `String.prototype.split('/')` on the character list. -/
def splitSlash : List Char → List (List Char)
  | [] => [[]]
  | c :: rest =>
    match splitSlash rest with
    | [] => [[]]
    | seg :: segs => if c = '/' then [] :: seg :: segs else (c :: seg) :: segs

/-- `path.split('/')` producing strings. -/
def splitSegs (s : String) : List String :=
  (splitSlash s.data).map String.mk

/-- `array.join('\n')` as used on the renderers' `lines` arrays. -/
def joinNL : List String → String
  | [] => ""
  | [s] => s
  | s :: rest => s ++ "\n" ++ joinNL rest

/-- `array.join(', ')` as used by `formatStats`. -/
def joinCommaSep : List String → String
  | [] => ""
  | [s] => s
  | s :: rest => s ++ ", " ++ joinCommaSep rest

/-! ### Path normalizer (`src/utils/path-utils.ts`) -/

/-- One pass of the regex replacement `/\/+/g → '/'`: collapse every run of
consecutive slashes to a single slash. -/
def collapseSlashes : List Char → List Char
  | [] => []
  | [c] => [c]
  | a :: b :: rest =>
    if a = '/' ∧ b = '/' then collapseSlashes (b :: rest)
    else a :: collapseSlashes (b :: rest)

/-- `normalizePath` from `src/utils/path-utils.ts`: backslashes to forward
slashes, strip leading and trailing slashes, collapse duplicate slashes. -/
def normalizePath (path : String) : String :=
  let cs := path.data.map (fun c => if c = '\\' then '/' else c)
  let cs := cs.dropWhile (fun c => c = '/')
  let cs := (cs.reverse.dropWhile (fun c => c = '/')).reverse
  String.mk (collapseSlashes cs)

/-! ### Input data model (`src/types/index.ts`) -/

/-- The `type` discriminant of a GitHub tree item: `'blob' | 'tree'`. -/
inductive GitItemType where
  | blob : GitItemType
  | tree : GitItemType
deriving DecidableEq, Repr

/-- `GitHubTreeItem` (the fields `mode`, `sha`, `url` are never read by the
formatting core and are elided). -/
structure GitHubTreeItem where
  path : String
  type : GitItemType
  size : Option Nat
deriving DecidableEq, Repr

/-- `GitHubTreeResponse` (the fields `sha`, `url`, `truncated` are never read
by the formatting core and are elided). -/
structure GitHubTreeResponse where
  tree : List GitHubTreeItem
deriving DecidableEq, Repr

/-- `SubTreeOptions`: all four fields are optional in TypeScript. -/
structure SubTreeOptions where
  showSize : Option Bool
  maxDepth : Option Nat
  showStats : Option Bool
  fileExtFilter : Option (List String)
deriving DecidableEq, Repr

/-- `TreeStats`. -/
structure TreeStats where
  totalFiles : Nat
  totalDirs : Nat
  totalSize : Nat
  filteredExtensions : Option (List String)
  depthLimited : Option Nat
deriving DecidableEq, Repr

/-! ### Shared selection of entries under the filter path -/

/-- The predicate of the `items.filter(...)` call shared by both builders. -/
def filterPredB (nd : String) (it : GitHubTreeItem) : Bool :=
  if nd = "" then true
  else strStartsWith it.path (nd ++ "/") || it.path == nd

/-- Relative path segments of an item under the (normalized) filter path:
`none` models the `continue` that skips the directory-marker entry itself,
`some parts` models `relativePath.split('/')`. -/
def relParts (nd : String) (path : String) : Option (List String) :=
  if nd = "" then some (splitSegs path)
  else if path = nd then none
  else some (splitSegs (strDrop path (strLen nd + 1)))

/-! ### Plain tree nodes and builder (`src/services/tree-formatter.ts`) -/

/-- `TreeNode` of the plain formatter. -/
inductive TreeNode where
  | node (name : String) (isDirectory : Bool) (children : List TreeNode)

namespace TreeNode

def name : TreeNode → String
  | node n _ _ => n

def isDirectory : TreeNode → Bool
  | node _ d _ => d

def children : TreeNode → List TreeNode
  | node _ _ cs => cs

/-- Model of the in-place mutation `node.isDirectory = true`. -/
def setDir : TreeNode → Bool → TreeNode
  | node n _ cs, d => node n d cs

/-- Model of replacing a node's (mutable) children array. -/
def withChildren : TreeNode → List TreeNode → TreeNode
  | node n d _, cs => node n d cs

end TreeNode

/-- The comparator of the plain builder as a Boolean relation: files sort
before directories, lexicographic by name within a group
(`a.isDirectory ? 1 : -1`, then `localeCompare`). -/
def plainLeB (a b : TreeNode) : Bool :=
  if a.isDirectory = b.isDirectory then lexLeB a.name.data b.name.data
  else !a.isDirectory

/-- The plain comparator as a decidable relation for sorting. -/
def plainLe (a b : TreeNode) : Prop := plainLeB a b = true

instance : DecidableRel plainLe := fun a b => instDecidableEqBool (plainLeB a b) true

/-- Model of `children.sort(comparator)` in the plain builder. -/
def sortPlain (cs : List TreeNode) : List TreeNode :=
  List.insertionSort plainLe cs

/-- `addNestedNode` from `tree-formatter.ts`, with the path pre-split into
segments (the source re-splits the joined tail at each recursive call, which
is the identity on slash-free segments). -/
def addNestedNode (parent : TreeNode) (parts : List String) (isTree : Bool) : TreeNode :=
  match parts with
  | [] => parent
  | childName :: rest =>
    let cs := parent.children
    let cs :=
      if cs.any (fun c => c.name = childName) then cs
      else cs ++ [TreeNode.node childName (!rest.isEmpty || isTree) []]
    let cs :=
      if rest.isEmpty then cs
      else cs.map (fun c =>
        if c.name = childName then addNestedNode (c.setDir true) rest isTree else c)
    parent.withChildren (sortPlain cs)

/-- The body of the per-item loop of `buildTree`, acting on the
insertion-ordered `childrenMap`. -/
def buildTreeStep (nd : String) (acc : List TreeNode) (it : GitHubTreeItem) : List TreeNode :=
  match relParts nd it.path with
  | none => acc
  | some [] => acc
  | some (childName :: rest) =>
    let acc :=
      if acc.any (fun n => n.name = childName) then acc
      else acc ++ [TreeNode.node childName (!rest.isEmpty || it.type == GitItemType.tree) []]
    if rest.isEmpty then acc
    else acc.map (fun n =>
      if n.name = childName then addNestedNode (n.setDir true) rest (it.type == GitItemType.tree)
      else n)

/-- `buildTree` from `tree-formatter.ts`. -/
def buildTree (items : List GitHubTreeItem) (dirPath : String) : TreeNode :=
  let nd := normalizePath dirPath
  let filteredItems := items.filter (filterPredB nd)
  let cs := filteredItems.foldl (buildTreeStep nd) []
  TreeNode.node "" true (sortPlain cs)

/-! ### Plain renderer -/

mutual
/-- `formatNode` from `tree-formatter.ts`: joins the lines produced for the
node's children. -/
def formatNode : TreeNode → String → String
  | TreeNode.node _ _ cs, pfx => joinNL (formatNodeGo cs pfx)

/-- The loop body of `formatNode`: one output line per child, with connector
glyphs, recursing into non-empty children. A child is last exactly when the
remaining tail is empty (the source's `i === node.children.length - 1`). -/
def formatNodeGo : List TreeNode → String → List String
  | [], _ => []
  | c :: rest, pfx =>
    let isLast := rest.isEmpty
    let connector := if isLast then "└── " else "├── "
    let childPfx := if isLast then "    " else "│   "
    let displayName := if c.isDirectory then c.name ++ "/" else c.name
    ([pfx ++ connector ++ displayName] ++
      (if c.children.isEmpty then [] else [formatNode c (pfx ++ childPfx)])) ++
    formatNodeGo rest pfx
end

/-- The root-level loop of `formatTree`: no connectors at the top level. -/
def formatTreeRootLines : List TreeNode → List String
  | [] => []
  | c :: rest =>
    let displayName := if c.isDirectory then c.name ++ "/" else c.name
    ([displayName] ++
      (if c.children.isEmpty then [] else [formatNode c ""])) ++
    formatTreeRootLines rest

/-- `formatTree` from `tree-formatter.ts`. -/
def formatTree (treeResponse : GitHubTreeResponse) (dirPath : String) : String :=
  if treeResponse.tree.isEmpty then "(empty directory)"
  else
    let tree := buildTree treeResponse.tree dirPath
    if tree.children.isEmpty then "(empty directory)"
    else joinNL (formatTreeRootLines tree.children)

/-! ### Enhanced tree nodes (`src/services/enhanced-tree-formatter.ts`) -/

/-- `EnhancedTreeNode`. -/
inductive EnhancedTreeNode where
  | node (name : String) (isDirectory : Bool) (size : Option Nat)
      (children : List EnhancedTreeNode) (depth : Nat)

namespace EnhancedTreeNode

def name : EnhancedTreeNode → String
  | node n _ _ _ _ => n

def isDirectory : EnhancedTreeNode → Bool
  | node _ d _ _ _ => d

def size : EnhancedTreeNode → Option Nat
  | node _ _ sz _ _ => sz

def children : EnhancedTreeNode → List EnhancedTreeNode
  | node _ _ _ cs _ => cs

def depth : EnhancedTreeNode → Nat
  | node _ _ _ _ dp => dp

/-- Model of the in-place mutation `node.isDirectory = true`. -/
def setDir : EnhancedTreeNode → Bool → EnhancedTreeNode
  | node n _ sz cs dp, d => node n d sz cs dp

/-- Model of replacing a node's (mutable) children array. -/
def withChildren : EnhancedTreeNode → List EnhancedTreeNode → EnhancedTreeNode
  | node n d sz _ dp, cs => node n d sz cs dp

end EnhancedTreeNode

/-- The comparator of the enhanced builder as a Boolean relation: directories
sort before files (`a.isDirectory ? -1 : 1`), lexicographic by name within a
group. -/
def enhLeB (a b : EnhancedTreeNode) : Bool :=
  if a.isDirectory = b.isDirectory then lexLeB a.name.data b.name.data
  else a.isDirectory

/-- The enhanced comparator as a decidable relation for sorting. -/
def enhLe (a b : EnhancedTreeNode) : Prop := enhLeB a b = true

instance : DecidableRel enhLe := fun a b => instDecidableEqBool (enhLeB a b) true

/-- Model of `children.sort(comparator)` in the enhanced builder. -/
def sortEnh (cs : List EnhancedTreeNode) : List EnhancedTreeNode :=
  List.insertionSort enhLe cs

/-- `(x / den).toFixed(1)` for a natural numerator and positive denominator:
exact rounding to one decimal digit, half away from zero. -/
def toFixed1 (num den : Nat) : String :=
  let t := (num * 10 + den / 2) / den
  toString (t / 10) ++ "." ++ toString (t % 10)

/-- `formatSize` from `enhanced-tree-formatter.ts`. -/
def formatSize (bytes : Nat) : String :=
  if bytes = 0 then "0B"
  else if bytes < 1024 then toString bytes ++ "B"
  else if bytes < 1024 * 1024 then toFixed1 bytes 1024 ++ "KB"
  else if bytes < 1024 * 1024 * 1024 then toFixed1 bytes (1024 * 1024) ++ "MB"
  else toFixed1 bytes (1024 * 1024 * 1024) ++ "GB"

/-- `matchesExtFilter` from `enhanced-tree-formatter.ts`. -/
def matchesExtFilter (fileName : String) (extFilter : Option (List String)) : Bool :=
  match extFilter with
  | none => true
  | some exts => if exts.isEmpty then true else exts.any (fun ext => strEndsWith fileName ext)

/-- `child.depth > maxDepth` where `maxDepth` is `options.maxDepth ?? Infinity`. -/
def depthGT (d : Nat) (md : Option Nat) : Bool :=
  match md with
  | none => false
  | some m => decide (d > m)

/-- `child.depth < maxDepth` where `maxDepth` is `options.maxDepth ?? Infinity`. -/
def depthLT (d : Nat) (md : Option Nat) : Bool :=
  match md with
  | none => true
  | some m => decide (d < m)

/-- `addNestedEnhancedNode` from `enhanced-tree-formatter.ts`, path pre-split
into segments. The early `return` on a filtered-out file leaf happens before
the find/create and before the final sort. -/
def addNestedEnhancedNode (parent : EnhancedTreeNode) (parts : List String)
    (it : GitHubTreeItem) (dp : Nat) (options : SubTreeOptions) : EnhancedTreeNode :=
  match parts with
  | [] => parent
  | childName :: rest =>
    if rest.isEmpty && (it.type == GitItemType.blob) &&
        !matchesExtFilter childName options.fileExtFilter then parent
    else
      let cs := parent.children
      let cs :=
        if cs.any (fun c => c.name = childName) then cs
        else
          let isDir := !rest.isEmpty || it.type == GitItemType.tree
          cs ++ [EnhancedTreeNode.node childName isDir (if isDir then none else it.size) [] dp]
      let cs :=
        if rest.isEmpty then cs
        else cs.map (fun c =>
          if c.name = childName then addNestedEnhancedNode (c.setDir true) rest it (dp + 1) options
          else c)
      parent.withChildren (sortEnh cs)

/-- The body of the per-item loop of `buildEnhancedTree`, acting on the
insertion-ordered `childrenMap`. -/
def buildEnhancedTreeStep (nd : String) (options : SubTreeOptions)
    (acc : List EnhancedTreeNode) (it : GitHubTreeItem) : List EnhancedTreeNode :=
  match relParts nd it.path with
  | none => acc
  | some [] => acc
  | some (childName :: rest) =>
    if rest.isEmpty && (it.type == GitItemType.blob) &&
        !matchesExtFilter childName options.fileExtFilter then acc
    else
      let acc :=
        if acc.any (fun n => n.name = childName) then acc
        else
          let isDir := !rest.isEmpty || it.type == GitItemType.tree
          acc ++ [EnhancedTreeNode.node childName isDir (if isDir then none else it.size) [] 1]
      if rest.isEmpty then acc
      else acc.map (fun n =>
        if n.name = childName then addNestedEnhancedNode (n.setDir true) rest it 2 options
        else n)

/-- `buildEnhancedTree` from `enhanced-tree-formatter.ts`. -/
def buildEnhancedTree (items : List GitHubTreeItem) (dirPath : String)
    (options : SubTreeOptions) : EnhancedTreeNode :=
  let nd := normalizePath dirPath
  let filteredItems := items.filter (filterPredB nd)
  let cs := filteredItems.foldl (buildEnhancedTreeStep nd options) []
  EnhancedTreeNode.node "" true none (sortEnh cs) 0

/-! ### Statistics aggregation -/

mutual
/-- `calculateStats` from `enhanced-tree-formatter.ts`, restricted to the
mutable `(totalFiles, totalDirs, totalSize)` accumulator. -/
def calcStatsNode : EnhancedTreeNode → Option Nat → Nat × Nat × Nat → Nat × Nat × Nat
  | EnhancedTreeNode.node _ _ _ cs _, md, acc => calcStatsGo cs md acc

/-- The child loop of `calculateStats`. -/
def calcStatsGo : List EnhancedTreeNode → Option Nat → Nat × Nat × Nat → Nat × Nat × Nat
  | [], _, acc => acc
  | c :: rest, md, acc =>
    calcStatsGo rest md
      (if depthGT c.depth md then acc
       else if c.isDirectory then calcStatsNode c md (acc.1, acc.2.1 + 1, acc.2.2)
       else (acc.1 + 1, acc.2.1, acc.2.2 + c.size.getD 0))
end

/-- `calculateStats` including the echo fields set after the traversal. -/
def calculateStats (n : EnhancedTreeNode) (options : SubTreeOptions) : TreeStats :=
  let acc := calcStatsNode n options.maxDepth (0, 0, 0)
  { totalFiles := acc.1
    totalDirs := acc.2.1
    totalSize := acc.2.2
    filteredExtensions :=
      match options.fileExtFilter with
      | some exts => if exts.isEmpty then none else some exts
      | none => none
    depthLimited := options.maxDepth }

mutual
/-- `calculateDirSize` from `enhanced-tree-formatter.ts`. -/
def calculateDirSize : EnhancedTreeNode → Option Nat → Nat
  | EnhancedTreeNode.node _ _ _ cs _, md => dirSizeGo cs md

/-- The child loop of `calculateDirSize`. -/
def dirSizeGo : List EnhancedTreeNode → Option Nat → Nat
  | [], _ => 0
  | c :: rest, md =>
    (if depthGT c.depth md then 0
     else if c.isDirectory then calculateDirSize c md
     else c.size.getD 0) +
    dirSizeGo rest md
end

mutual
/-- `countDirFiles` from `enhanced-tree-formatter.ts`. -/
def countDirFiles : EnhancedTreeNode → Option Nat → Nat
  | EnhancedTreeNode.node _ _ _ cs _, md => countFilesGo cs md

/-- The child loop of `countDirFiles`. -/
def countFilesGo : List EnhancedTreeNode → Option Nat → Nat
  | [], _ => 0
  | c :: rest, md =>
    (if depthGT c.depth md then 0
     else if c.isDirectory then countDirFiles c md
     else 1) +
    countFilesGo rest md
end

/-! ### Enhanced renderer -/

/-- The display-name computation with optional size annotation. The source
repeats this block verbatim inside `formatEnhancedNode` (lines 252–265) and
inside the root-level loop of `formatSubTree` (lines 334–347); it is factored
here so both call sites share it. -/
def displayNameOf (c : EnhancedTreeNode) (options : SubTreeOptions) (md : Option Nat) : String :=
  let base := if c.isDirectory then c.name ++ "/" else c.name
  if options.showSize = some true then
    if c.isDirectory then
      let dirSize := calculateDirSize c md
      let fileCount := countDirFiles c md
      if fileCount > 0 then
        base ++ " (" ++ toString fileCount ++ " " ++
          (if fileCount = 1 then "file" else "files") ++ ", " ++ formatSize dirSize ++ ")"
      else base
    else
      match c.size with
      | some sz => base ++ " (" ++ formatSize sz ++ ")"
      | none => base
  else base

mutual
/-- `formatEnhancedNode` from `enhanced-tree-formatter.ts`. -/
def formatEnhancedNode : EnhancedTreeNode → String → SubTreeOptions → Option Nat → String
  | EnhancedTreeNode.node _ _ _ cs _, pfx, options, md => joinNL (formatEnhGo cs pfx options md)

/-- The child loop of `formatEnhancedNode`: skips children beyond the depth
bound, renders one line per remaining child, recurses while strictly below
the bound, and drops an empty recursive rendering. `isLast` follows the
source's original-index comparison, so a skipped child still counts for the
last-position test of its siblings. -/
def formatEnhGo : List EnhancedTreeNode → String → SubTreeOptions → Option Nat → List String
  | [], _, _, _ => []
  | c :: rest, pfx, options, md =>
    if depthGT c.depth md then formatEnhGo rest pfx options md
    else
      let isLast := rest.isEmpty
      let connector := if isLast then "└── " else "├── "
      let childPfx := if isLast then "    " else "│   "
      let displayName := displayNameOf c options md
      ([pfx ++ connector ++ displayName] ++
        (if !c.children.isEmpty && depthLT c.depth md then
          let cf := formatEnhancedNode c (pfx ++ childPfx) options md
          if cf = "" then [] else [cf]
         else [])) ++
      formatEnhGo rest pfx options md
end

/-- The root-level loop of `formatSubTree`: no connectors, no depth skip at
the root, recursion gated on non-empty children strictly below the bound. -/
def formatSubTreeRootLines :
    List EnhancedTreeNode → SubTreeOptions → Option Nat → List String
  | [], _, _ => []
  | c :: rest, options, md =>
    let displayName := displayNameOf c options md
    (if !c.children.isEmpty && depthLT c.depth md then
      [displayName] ++
        (let cf := formatEnhancedNode c "" options md
         if cf = "" then [] else [cf])
     else [displayName]) ++
    formatSubTreeRootLines rest options md

/-- `formatStats` from `enhanced-tree-formatter.ts`. -/
def formatStats (stats : TreeStats) : String :=
  joinCommaSep
    (["📊 Summary: " ++ toString stats.totalDirs ++ " " ++
        (if stats.totalDirs = 1 then "directory" else "directories"),
      toString stats.totalFiles ++ " " ++
        (if stats.totalFiles = 1 then "file" else "files")] ++
     (if stats.totalSize > 0 then [formatSize stats.totalSize ++ " total"] else []) ++
     (match stats.filteredExtensions with
      | some exts => if !exts.isEmpty then ["(filtered: " ++ joinCommaSep exts ++ ")"] else []
      | none => []) ++
     (match stats.depthLimited with
      | some n => ["(depth limited to " ++ toString n ++ ")"]
      | none => []))

/-- `formatSubTree` from `enhanced-tree-formatter.ts`. -/
def formatSubTree (treeResponse : GitHubTreeResponse) (dirPath : String)
    (options : SubTreeOptions) : String :=
  if treeResponse.tree.isEmpty then "(empty directory)"
  else
    let tree := buildEnhancedTree treeResponse.tree dirPath options
    if tree.children.isEmpty then "(empty directory)"
    else
      let md := options.maxDepth
      let result := joinNL (formatSubTreeRootLines tree.children options md)
      if options.showStats ≠ some false then
        result ++ "\n\n" ++ formatStats (calculateStats tree options)
      else result

/-! ### Comparator order instances -/

/-- The sort comparators are total orders in the sense `insertionSort`'s
sortedness lemma expects; totality and transitivity of `lexLeB` are proved
inline. -/
instance : IsTotal TreeNode plainLe := by
  constructor
  have key : ∀ (u v : List Char), lexLeB u v = true ∨ lexLeB v u = true := by
    intro u v
    induction u generalizing v with
    | nil => exact Or.inl rfl
    | cons x xs ih =>
      cases v with
      | nil => exact Or.inr rfl
      | cons y ys =>
        by_cases hxy : x = y
        · subst hxy
          simpa [lexLeB] using ih ys
        · rcases lt_or_gt_of_ne hxy with h | h
          · exact Or.inl (by simp [lexLeB, hxy, h])
          · exact Or.inr (by simp [lexLeB, Ne.symm hxy, h])
  intro a b
  unfold plainLe plainLeB
  by_cases h : a.isDirectory = b.isDirectory
  · simpa [h] using key a.name.data b.name.data
  · cases ha : a.isDirectory <;> cases hb : b.isDirectory <;> simp_all

instance : IsTrans TreeNode plainLe := by
  constructor
  have key : ∀ {u v w : List Char}, lexLeB u v = true → lexLeB v w = true →
      lexLeB u w = true := by
    intro u v w hab hbc
    induction u generalizing v w with
    | nil => rfl
    | cons x xs ih =>
      cases v with
      | nil => simp [lexLeB] at hab
      | cons y ys =>
        cases w with
        | nil => simp [lexLeB] at hbc
        | cons z zs =>
          by_cases hxy : x = y
          · subst hxy
            by_cases hyz : x = z
            · subst hyz
              simp only [lexLeB, if_pos rfl] at hab hbc ⊢
              exact ih hab hbc
            · simp only [lexLeB, if_pos rfl] at hab
              simp only [lexLeB, if_neg hyz] at hbc ⊢
              exact hbc
          · simp only [lexLeB, if_neg hxy, decide_eq_true_eq] at hab
            by_cases hyz : y = z
            · subst hyz
              simp [lexLeB, hxy, hab]
            · simp only [lexLeB, if_neg hyz, decide_eq_true_eq] at hbc
              have hxz : x < z := lt_trans hab hbc
              simp [lexLeB, ne_of_lt hxz, hxz]
  intro a b c hab hbc
  unfold plainLe plainLeB at *
  cases ha : a.isDirectory <;> cases hb : b.isDirectory <;> cases hc : c.isDirectory <;>
    simp_all <;> exact key hab hbc

instance : IsTotal EnhancedTreeNode enhLe := by
  constructor
  have key : ∀ (u v : List Char), lexLeB u v = true ∨ lexLeB v u = true := by
    intro u v
    induction u generalizing v with
    | nil => exact Or.inl rfl
    | cons x xs ih =>
      cases v with
      | nil => exact Or.inr rfl
      | cons y ys =>
        by_cases hxy : x = y
        · subst hxy
          simpa [lexLeB] using ih ys
        · rcases lt_or_gt_of_ne hxy with h | h
          · exact Or.inl (by simp [lexLeB, hxy, h])
          · exact Or.inr (by simp [lexLeB, Ne.symm hxy, h])
  intro a b
  unfold enhLe enhLeB
  by_cases h : a.isDirectory = b.isDirectory
  · simpa [h] using key a.name.data b.name.data
  · cases ha : a.isDirectory <;> cases hb : b.isDirectory <;> simp_all

instance : IsTrans EnhancedTreeNode enhLe := by
  constructor
  have key : ∀ {u v w : List Char}, lexLeB u v = true → lexLeB v w = true →
      lexLeB u w = true := by
    intro u v w hab hbc
    induction u generalizing v w with
    | nil => rfl
    | cons x xs ih =>
      cases v with
      | nil => simp [lexLeB] at hab
      | cons y ys =>
        cases w with
        | nil => simp [lexLeB] at hbc
        | cons z zs =>
          by_cases hxy : x = y
          · subst hxy
            by_cases hyz : x = z
            · subst hyz
              simp only [lexLeB, if_pos rfl] at hab hbc ⊢
              exact ih hab hbc
            · simp only [lexLeB, if_pos rfl] at hab
              simp only [lexLeB, if_neg hyz] at hbc ⊢
              exact hbc
          · simp only [lexLeB, if_neg hxy, decide_eq_true_eq] at hab
            by_cases hyz : y = z
            · subst hyz
              simp [lexLeB, hxy, hab]
            · simp only [lexLeB, if_neg hyz, decide_eq_true_eq] at hbc
              have hxz : x < z := lt_trans hab hbc
              simp [lexLeB, ne_of_lt hxz, hxz]
  intro a b c hab hbc
  unfold enhLe enhLeB at *
  cases ha : a.isDirectory <;> cases hb : b.isDirectory <;> cases hc : c.isDirectory <;>
    simp_all <;> exact key hab hbc

/-! ### Sortedness and reachability predicates -/

/-- Every node of the tree has its children list sorted by the plain
comparator (directories after files, lexicographic within a group). -/
inductive PlainSorted : TreeNode → Prop where
  | mk (nm : String) (d : Bool) (cs : List TreeNode) :
      List.Pairwise plainLe cs → (∀ c ∈ cs, PlainSorted c) →
      PlainSorted (TreeNode.node nm d cs)

/-- Every node of the enhanced tree has its children list sorted by the
enhanced comparator (directories before files, lexicographic within a
group). -/
inductive EnhSorted : EnhancedTreeNode → Prop where
  | mk (nm : String) (d : Bool) (sz : Option Nat) (cs : List EnhancedTreeNode) (dp : Nat) :
      List.Pairwise enhLe cs → (∀ c ∈ cs, EnhSorted c) →
      EnhSorted (EnhancedTreeNode.node nm d sz cs dp)

/-- `NodeAtL cs p n`: following the nonempty segment path `p` from the
children list `cs` reaches the node `n`. Duplicate names would simply yield
several reachable nodes, so no uniqueness assumption is needed. -/
inductive NodeAtL : List TreeNode → List String → TreeNode → Prop where
  | here {cs : List TreeNode} {c : TreeNode} {s : String} :
      c ∈ cs → c.name = s → NodeAtL cs [s] c
  | there {cs : List TreeNode} {c : TreeNode} {s : String} {p : List String} {n : TreeNode} :
      c ∈ cs → c.name = s → NodeAtL c.children p n → NodeAtL cs (s :: p) n

/-- Some node sits at path `p` below the children list `cs`. -/
def ExAt (cs : List TreeNode) (p : List String) : Prop := ∃ n, NodeAtL cs p n

/-- Some node with `isDirectory = true` sits at path `p` below `cs`. -/
def ExDirAt (cs : List TreeNode) (p : List String) : Prop :=
  ∃ n, NodeAtL cs p n ∧ n.isDirectory = true

/-- The set of paths an item contributes to the plain tree: every nonempty
prefix of its relative segment list (nothing if the item is the filter-path
marker itself). -/
def plainContrib (nd : String) (it : GitHubTreeItem) (p : List String) : Prop :=
  match relParts nd it.path with
  | none => False
  | some segs => p ≠ [] ∧ p <+: segs

/-- The paths an item forces to be directories: its proper nonempty relative
prefixes (those with descendants). -/
def properContrib (nd : String) (it : GitHubTreeItem) (p : List String) : Prop :=
  match relParts nd it.path with
  | none => False
  | some segs => p ≠ [] ∧ p <+: segs ∧ p ≠ segs

/-- `NodeAtLE cs p n`: following the nonempty segment path `p` from the
enhanced children list `cs` reaches the node `n`. -/
inductive NodeAtLE : List EnhancedTreeNode → List String → EnhancedTreeNode → Prop where
  | here {cs : List EnhancedTreeNode} {c : EnhancedTreeNode} {s : String} :
      c ∈ cs → c.name = s → NodeAtLE cs [s] c
  | there {cs : List EnhancedTreeNode} {c : EnhancedTreeNode} {s : String}
      {p : List String} {n : EnhancedTreeNode} :
      c ∈ cs → c.name = s → NodeAtLE c.children p n → NodeAtLE cs (s :: p) n

/-- Some node sits at path `p` below the enhanced children list `cs`. -/
def ExAtE (cs : List EnhancedTreeNode) (p : List String) : Prop := ∃ n, NodeAtLE cs p n

/-- Some node with `isDirectory = true` sits at path `p` below `cs`. -/
def ExDirAtE (cs : List EnhancedTreeNode) (p : List String) : Prop :=
  ∃ n, NodeAtLE cs p n ∧ n.isDirectory = true

/-- The set of paths an item contributes to the enhanced tree: every nonempty
prefix of its relative segment list — except that a `blob` item whose file
name fails the extension filter does not contribute its full path (its leaf
is dropped), only the proper prefixes (its ancestor directories). -/
def enhContrib (nd : String) (options : SubTreeOptions) (it : GitHubTreeItem)
    (p : List String) : Prop :=
  match relParts nd it.path with
  | none => False
  | some segs =>
    p ≠ [] ∧ p <+: segs ∧
      (p = segs → it.type = GitItemType.tree ∨
        matchesExtFilter (segs.getLastD "") options.fileExtFilter = true)

/-! ### Collecting the names a renderer emits -/

mutual
/-- The names emitted for a node's subtree by `formatNode` (one per line). -/
def plainNodeNames : TreeNode → List String
  | TreeNode.node _ _ cs => plainNamesGo cs

/-- The names emitted by the loops of `formatNode` and of `formatTree`'s root
level: one name per child line, then the recursive block's names whenever the
child has children (prefixes and connectors carry no entry names). -/
def plainNamesGo : List TreeNode → List String
  | [] => []
  | c :: rest =>
    ([c.name] ++ (if c.children.isEmpty then [] else plainNodeNames c)) ++ plainNamesGo rest
end

/-- The names appearing in `formatTree`'s output (the `(empty directory)`
literal contains no entry name). -/
def plainRenderedNames (treeResponse : GitHubTreeResponse) (dirPath : String) : List String :=
  if treeResponse.tree.isEmpty then []
  else
    let tree := buildTree treeResponse.tree dirPath
    if tree.children.isEmpty then []
    else plainNamesGo tree.children

mutual
/-- The names emitted for a node's subtree by `formatEnhancedNode`. -/
def enhNodeNames : EnhancedTreeNode → Option Nat → List String
  | EnhancedTreeNode.node _ _ _ cs _, md => enhNamesGo cs md

/-- The names emitted by the loops of `formatEnhancedNode` and of
`formatSubTree`'s root level, with the same depth guards as the renderer
(annotations carry no entry names, so options other than the depth bound do
not change which names appear). -/
def enhNamesGo : List EnhancedTreeNode → Option Nat → List String
  | [], _ => []
  | c :: rest, md =>
    if depthGT c.depth md then enhNamesGo rest md
    else
      ([c.name] ++
        (if !c.children.isEmpty && depthLT c.depth md then enhNodeNames c md else [])) ++
      enhNamesGo rest md
end

/-- The names appearing in `formatSubTree`'s output. -/
def enhRenderedNames (treeResponse : GitHubTreeResponse) (dirPath : String)
    (options : SubTreeOptions) : List String :=
  if treeResponse.tree.isEmpty then []
  else
    let tree := buildEnhancedTree treeResponse.tree dirPath options
    if tree.children.isEmpty then []
    else enhNamesGo tree.children options.maxDepth

/-- The summary line as worded by the spec (for comparison with the
implementation's `formatStats`): the fixed header with counts and
singular/plural words, then `", {size} total"` exactly when the total size is
positive, then the filtered-extensions echo, then the depth echo. -/
def summarySpec (stats : TreeStats) : String :=
  "📊 Summary: " ++ toString stats.totalDirs ++ " " ++
    (if stats.totalDirs = 1 then "directory" else "directories") ++ ", " ++
  toString stats.totalFiles ++ " " ++
    (if stats.totalFiles = 1 then "file" else "files") ++
  (if stats.totalSize > 0 then ", " ++ formatSize stats.totalSize ++ " total" else "") ++
  (match stats.filteredExtensions with
   | some exts => if exts.isEmpty then "" else ", (filtered: " ++ joinCommaSep exts ++ ")"
   | none => "") ++
  (match stats.depthLimited with
   | some n => ", (depth limited to " ++ toString n ++ ")"
   | none => "")

/-! ### Depth truncation (for the depth-cutoff claim) -/

mutual
/-- Prune every strict descendant deeper than `d` from a node. -/
def truncNode : Nat → EnhancedTreeNode → EnhancedTreeNode
  | d, EnhancedTreeNode.node nm dir sz cs dp => EnhancedTreeNode.node nm dir sz (truncE d cs) dp

/-- Prune every node of depth `> d`, together with its entire subtree. -/
def truncE : Nat → List EnhancedTreeNode → List EnhancedTreeNode
  | _, [] => []
  | d, c :: rest => (if c.depth > d then [] else [truncNode d c]) ++ truncE d rest
end

/-- The builders assign every node the depth `parent depth + 1`; `DC n k`
states that `n` carries depth `k` and its subtree is consistently numbered. -/
inductive DC : EnhancedTreeNode → Nat → Prop where
  | mk (nm : String) (dir : Bool) (sz : Option Nat) (cs : List EnhancedTreeNode)
      (dp k : Nat) : dp = k → (∀ c ∈ cs, DC c (k + 1)) →
      DC (EnhancedTreeNode.node nm dir sz cs dp) k

/-! ### Order properties of the comparators -/

theorem lexLeB_nil_left (b : List Char) : lexLeB [] b = true := rfl

theorem lexLeB_total (a b : List Char) : lexLeB a b = true ∨ lexLeB b a = true := by
  induction a generalizing b with
  | nil => exact Or.inl rfl
  | cons x xs ih =>
    cases b with
    | nil => exact Or.inr rfl
    | cons y ys =>
      by_cases hxy : x = y
      · subst hxy
        simpa [lexLeB] using ih ys
      · rcases lt_or_gt_of_ne hxy with h | h
        · exact Or.inl (by simp [lexLeB, hxy, h])
        · exact Or.inr (by simp [lexLeB, Ne.symm hxy, h])

theorem lexLeB_trans {a b c : List Char} (hab : lexLeB a b = true)
    (hbc : lexLeB b c = true) : lexLeB a c = true := by
  induction a generalizing b c with
  | nil => rfl
  | cons x xs ih =>
    cases b with
    | nil => simp [lexLeB] at hab
    | cons y ys =>
      cases c with
      | nil => simp [lexLeB] at hbc
      | cons z zs =>
        by_cases hxy : x = y
        · subst hxy
          by_cases hyz : x = z
          · subst hyz
            simp only [lexLeB, if_pos rfl] at hab hbc ⊢
            exact ih hab hbc
          · simp only [lexLeB, if_pos rfl] at hab
            simp only [lexLeB, if_neg hyz] at hbc ⊢
            exact hbc
        · simp only [lexLeB, if_neg hxy, decide_eq_true_eq] at hab
          by_cases hyz : y = z
          · subst hyz
            simp [lexLeB, hxy, hab]
          · simp only [lexLeB, if_neg hyz, decide_eq_true_eq] at hbc
            have hxz : x < z := lt_trans hab hbc
            simp [lexLeB, ne_of_lt hxz, hxz]

theorem sortPlain_pairwise (cs : List TreeNode) : List.Pairwise plainLe (sortPlain cs) :=
  List.sorted_insertionSort plainLe cs

theorem sortPlain_mem {c : TreeNode} {cs : List TreeNode} :
    c ∈ sortPlain cs ↔ c ∈ cs :=
  (List.perm_insertionSort plainLe cs).mem_iff

theorem sortEnh_pairwise (cs : List EnhancedTreeNode) : List.Pairwise enhLe (sortEnh cs) :=
  List.sorted_insertionSort enhLe cs

theorem sortEnh_mem {c : EnhancedTreeNode} {cs : List EnhancedTreeNode} :
    c ∈ sortEnh cs ↔ c ∈ cs :=
  (List.perm_insertionSort enhLe cs).mem_iff

/-! ### Every children list of a built tree is sorted by its builder's order -/

theorem plainSorted_pairwise {t : TreeNode} (h : PlainSorted t) :
    List.Pairwise plainLe t.children := by
  cases h with
  | mk nm d cs h1 h2 => exact h1

theorem plainSorted_mem {t : TreeNode} (h : PlainSorted t) :
    ∀ c ∈ t.children, PlainSorted c := by
  cases h with
  | mk nm d cs h1 h2 => exact h2

theorem plainSorted_setDir {t : TreeNode} (h : PlainSorted t) (b : Bool) :
    PlainSorted (t.setDir b) := by
  cases h with
  | mk nm d cs h1 h2 => exact PlainSorted.mk nm b cs h1 h2

/-- `addNestedNode` produces a fully sorted subtree provided every existing
child subtree of the parent was sorted (the parent's own children list is
re-sorted by the call itself). -/
theorem addNestedNode_sorted (parts : List String) (hne : parts ≠ []) (b : Bool) :
    ∀ (parent : TreeNode), (∀ c ∈ parent.children, PlainSorted c) →
      PlainSorted (addNestedNode parent parts b) := by
  induction parts with
  | nil => exact absurd rfl hne
  | cons childName rest ih =>
    intro parent hsorted
    cases parent with
    | node nm d cs0 =>
      show PlainSorted (TreeNode.node nm d _)
      have hsorted' : ∀ c ∈ cs0, PlainSorted c := hsorted
      -- the list after the create-if-missing step
      set cs1 := if cs0.any (fun c => c.name = childName) then cs0
        else cs0 ++ [TreeNode.node childName (!rest.isEmpty || b) []] with hcs1
      have h1 : ∀ c ∈ cs1, PlainSorted c := by
        intro c hc
        rw [hcs1] at hc
        split at hc
        · exact hsorted' c hc
        · rcases List.mem_append.1 hc with h | h
          · exact hsorted' c h
          · rcases List.mem_singleton.1 h with rfl
            exact PlainSorted.mk _ _ [] (List.Pairwise.nil) (by simp)
      -- the list after the optional nested update
      set cs2 := if rest.isEmpty then cs1
        else cs1.map (fun c =>
          if c.name = childName then addNestedNode (c.setDir true) rest b else c) with hcs2
      have h2 : ∀ c ∈ cs2, PlainSorted c := by
        intro c hc
        rw [hcs2] at hc
        split at hc
        · exact h1 c hc
        · next hrest =>
          rcases List.mem_map.1 hc with ⟨c0, hc0, rfl⟩
          by_cases hname : c0.name = childName
          · simp only [hname, if_pos rfl]
            refine ih (by simpa using hrest) (c0.setDir true) ?_
            intro c' hc'
            cases c0 with
            | node n0 d0 cs0' => exact plainSorted_mem (h1 _ hc0) c' hc'
          · simpa [hname] using h1 c0 hc0
      refine PlainSorted.mk nm d _ (sortPlain_pairwise cs2) ?_
      intro c hc
      exact h2 c (sortPlain_mem.1 hc)

/-- `buildTreeStep` preserves well-sortedness of every accumulated subtree. -/
theorem buildTreeStep_sorted (nd : String) (acc : List TreeNode) (it : GitHubTreeItem)
    (h : ∀ c ∈ acc, PlainSorted c) :
    ∀ c ∈ buildTreeStep nd acc it, PlainSorted c := by
  unfold buildTreeStep
  cases hrel : relParts nd it.path with
  | none => exact h
  | some parts =>
    cases parts with
    | nil => exact h
    | cons childName rest =>
      simp only
      set acc1 := if acc.any (fun n => n.name = childName) then acc
        else acc ++ [TreeNode.node childName (!rest.isEmpty || it.type == GitItemType.tree) []]
        with hacc1
      have h1 : ∀ c ∈ acc1, PlainSorted c := by
        intro c hc
        rw [hacc1] at hc
        split at hc
        · exact h c hc
        · rcases List.mem_append.1 hc with hc | hc
          · exact h c hc
          · rcases List.mem_singleton.1 hc with rfl
            exact PlainSorted.mk _ _ [] (List.Pairwise.nil) (by simp)
      split
      · exact h1
      · next hrest =>
        intro c hc
        rcases List.mem_map.1 hc with ⟨c0, hc0, rfl⟩
        by_cases hname : c0.name = childName
        · simp only [hname, if_pos rfl]
          refine addNestedNode_sorted rest (by simpa using hrest) _ (c0.setDir true) ?_
          intro c' hc'
          cases c0 with
          | node n0 d0 cs0 => exact plainSorted_mem (h1 _ hc0) c' hc'
        · simpa [hname] using h1 c0 hc0

/-- Every children list of the tree built by the plain builder is sorted by
the plain order. -/
theorem buildTree_sorted (items : List GitHubTreeItem) (dirPath : String) :
    PlainSorted (buildTree items dirPath) := by
  unfold buildTree
  have h : ∀ c ∈ (items.filter (filterPredB (normalizePath dirPath))).foldl
      (buildTreeStep (normalizePath dirPath)) [], PlainSorted c := by
    generalize items.filter (filterPredB (normalizePath dirPath)) = l
    have : ∀ (acc : List TreeNode), (∀ c ∈ acc, PlainSorted c) →
        ∀ c ∈ l.foldl (buildTreeStep (normalizePath dirPath)) acc, PlainSorted c := by
      induction l with
      | nil => exact fun acc h => h
      | cons it l ih =>
        intro acc h
        exact ih _ (buildTreeStep_sorted _ acc it h)
    exact this [] (by simp)
  refine PlainSorted.mk _ _ _ (sortPlain_pairwise _) ?_
  intro c hc
  exact h c (sortPlain_mem.1 hc)

theorem enhSorted_pairwise {t : EnhancedTreeNode} (h : EnhSorted t) :
    List.Pairwise enhLe t.children := by
  cases h with
  | mk nm d sz cs dp h1 h2 => exact h1

theorem enhSorted_mem {t : EnhancedTreeNode} (h : EnhSorted t) :
    ∀ c ∈ t.children, EnhSorted c := by
  cases h with
  | mk nm d sz cs dp h1 h2 => exact h2

/-- `addNestedEnhancedNode` produces a fully sorted subtree provided every
existing child subtree of the parent was sorted. -/
theorem addNestedEnhancedNode_sorted (parts : List String) (hne : parts ≠ [])
    (it : GitHubTreeItem) (options : SubTreeOptions) :
    ∀ (dp : Nat) (parent : EnhancedTreeNode),
      EnhSorted parent →
      EnhSorted (addNestedEnhancedNode parent parts it dp options) := by
  induction parts with
  | nil => exact absurd rfl hne
  | cons childName rest ih =>
    intro dp parent hsorted
    cases parent with
    | node nm d sz cs0 dp0 =>
      unfold addNestedEnhancedNode
      split
      · exact hsorted
      · simp only
        have hsorted' : ∀ c ∈ cs0, EnhSorted c := enhSorted_mem hsorted
        set cs1 := if cs0.any (fun c => c.name = childName) then cs0
          else cs0 ++ [EnhancedTreeNode.node childName
            (!rest.isEmpty || it.type == GitItemType.tree)
            (if !rest.isEmpty || it.type == GitItemType.tree then none else it.size) [] dp]
          with hcs1
        have h1 : ∀ c ∈ cs1, EnhSorted c := by
          intro c hc
          rw [hcs1] at hc
          split at hc
          · exact hsorted' c hc
          · rcases List.mem_append.1 hc with h | h
            · exact hsorted' c h
            · rcases List.mem_singleton.1 h with rfl
              exact EnhSorted.mk _ _ _ [] _ (List.Pairwise.nil) (by simp)
        set cs2 := if rest.isEmpty then cs1
          else cs1.map (fun c =>
            if c.name = childName then addNestedEnhancedNode (c.setDir true) rest it (dp + 1) options
            else c) with hcs2
        have h2 : ∀ c ∈ cs2, EnhSorted c := by
          intro c hc
          rw [hcs2] at hc
          split at hc
          · exact h1 c hc
          · next hrest =>
            rcases List.mem_map.1 hc with ⟨c0, hc0, rfl⟩
            by_cases hname : c0.name = childName
            · simp only [hname, if_pos rfl]
              refine ih (by simpa using hrest) (dp + 1) (c0.setDir true) ?_
              cases c0 with
              | node n0 d0 sz0 cs0' dp0' =>
                cases h1 _ hc0 with
                | mk _ _ _ _ _ hp hm => exact EnhSorted.mk _ _ _ _ _ hp hm
            · simpa [hname] using h1 c0 hc0
        exact EnhSorted.mk nm d sz _ dp0 (sortEnh_pairwise cs2) fun c hc => h2 c (sortEnh_mem.1 hc)

/-- `buildEnhancedTreeStep` preserves well-sortedness of every accumulated
subtree. -/
theorem buildEnhancedTreeStep_sorted (nd : String) (options : SubTreeOptions)
    (acc : List EnhancedTreeNode) (it : GitHubTreeItem)
    (h : ∀ c ∈ acc, EnhSorted c) :
    ∀ c ∈ buildEnhancedTreeStep nd options acc it, EnhSorted c := by
  unfold buildEnhancedTreeStep
  cases hrel : relParts nd it.path with
  | none => exact h
  | some parts =>
    cases parts with
    | nil => exact h
    | cons childName rest =>
      simp only
      split
      · exact h
      · set acc1 := if acc.any (fun n => n.name = childName) then acc
          else acc ++ [EnhancedTreeNode.node childName
            (!rest.isEmpty || it.type == GitItemType.tree)
            (if !rest.isEmpty || it.type == GitItemType.tree then none else it.size) [] 1]
          with hacc1
        have h1 : ∀ c ∈ acc1, EnhSorted c := by
          intro c hc
          rw [hacc1] at hc
          split at hc
          · exact h c hc
          · rcases List.mem_append.1 hc with hc | hc
            · exact h c hc
            · rcases List.mem_singleton.1 hc with rfl
              exact EnhSorted.mk _ _ _ [] _ (List.Pairwise.nil) (by simp)
        split
        · exact h1
        · next hrest =>
          intro c hc
          rcases List.mem_map.1 hc with ⟨c0, hc0, rfl⟩
          by_cases hname : c0.name = childName
          · simp only [hname, if_pos rfl]
            exact addNestedEnhancedNode_sorted rest (by simpa using hrest) it options 2
              (c0.setDir true) (by
                cases c0 with
                | node n0 d0 sz0 cs0 dp0 =>
                  cases h1 _ hc0 with
                  | mk _ _ _ _ _ hp hm => exact EnhSorted.mk _ _ _ _ _ hp hm)
          · simpa [hname] using h1 c0 hc0

/-- Every children list of the tree built by the enhanced builder is sorted
by the enhanced order. -/
theorem buildEnhancedTree_sorted (items : List GitHubTreeItem) (dirPath : String)
    (options : SubTreeOptions) :
    EnhSorted (buildEnhancedTree items dirPath options) := by
  unfold buildEnhancedTree
  have h : ∀ c ∈ (items.filter (filterPredB (normalizePath dirPath))).foldl
      (buildEnhancedTreeStep (normalizePath dirPath) options) [], EnhSorted c := by
    generalize items.filter (filterPredB (normalizePath dirPath)) = l
    have : ∀ (acc : List EnhancedTreeNode), (∀ c ∈ acc, EnhSorted c) →
        ∀ c ∈ l.foldl (buildEnhancedTreeStep (normalizePath dirPath) options) acc,
          EnhSorted c := by
      induction l with
      | nil => exact fun acc h => h
      | cons it l ih =>
        intro acc h
        exact ih _ (buildEnhancedTreeStep_sorted _ options acc it h)
    exact this [] (by simp)
  exact EnhSorted.mk _ _ _ _ _ (sortEnh_pairwise _) fun c hc => h c (sortEnh_mem.1 hc)

/-! ### Claim theorems -/

/-- C5: on the four-entry sample list, `renderPlain` (`formatTree`) with the
empty filter path produces exactly the four lines `README.md`, `src/`,
`├── index.ts`, `└── utils.ts` joined by newlines, with no annotations or
statistics. -/
theorem claim5_plain_sample_render :
    formatTree ⟨[⟨"src", GitItemType.tree, none⟩,
                 ⟨"src/index.ts", GitItemType.blob, some 100⟩,
                 ⟨"src/utils.ts", GitItemType.blob, some 200⟩,
                 ⟨"README.md", GitItemType.blob, some 50⟩]⟩ "" =
      "README.md\nsrc/\n├── index.ts\n└── utils.ts" := by decide

/-- C6: in every tree built by either builder, every children list groups
directories together and files together with lexicographic order inside each
group; the plain builder puts the directory group after the file group and
the enhanced builder puts it before — exactly opposite group orderings. -/
theorem claim6_child_ordering (items : List GitHubTreeItem) (dirPath : String)
    (options : SubTreeOptions) :
    PlainSorted (buildTree items dirPath) ∧
    EnhSorted (buildEnhancedTree items dirPath options) ∧
    (∀ a b : TreeNode, a.isDirectory ≠ b.isDirectory →
      (plainLe a b ↔ a.isDirectory = false)) ∧
    (∀ a b : EnhancedTreeNode, a.isDirectory ≠ b.isDirectory →
      (enhLe a b ↔ a.isDirectory = true)) ∧
    (∀ a b : TreeNode, a.isDirectory = b.isDirectory →
      (plainLe a b ↔ lexLeB a.name.data b.name.data = true)) ∧
    (∀ a b : EnhancedTreeNode, a.isDirectory = b.isDirectory →
      (enhLe a b ↔ lexLeB a.name.data b.name.data = true)) := by
  refine ⟨buildTree_sorted items dirPath, buildEnhancedTree_sorted items dirPath options,
    ?_, ?_, ?_, ?_⟩
  · intro a b h
    unfold plainLe plainLeB
    cases ha : a.isDirectory <;> cases hb : b.isDirectory <;> simp_all
  · intro a b h
    unfold enhLe enhLeB
    cases ha : a.isDirectory <;> cases hb : b.isDirectory <;> simp_all
  · intro a b h
    simp [plainLe, plainLeB, h]
  · intro a b h
    simp [enhLe, enhLeB, h]

/-- C8: whenever the filter-rooted tree built by the respective builder has no
children (in particular for an empty entry list or a filter matching
nothing), each renderer returns exactly `(empty directory)` under every
option value; both renderers are total functions, so no error is ever
raised. -/
theorem claim8_empty_directory (resp : GitHubTreeResponse) (dirPath : String)
    (options : SubTreeOptions) :
    ((buildTree resp.tree dirPath).children.isEmpty = true →
      formatTree resp dirPath = "(empty directory)") ∧
    ((buildEnhancedTree resp.tree dirPath options).children.isEmpty = true →
      formatSubTree resp dirPath options = "(empty directory)") := by
  constructor
  · intro h
    unfold formatTree
    split
    · rfl
    · simp [h]
  · intro h
    unfold formatSubTree
    split
    · rfl
    · simp [h]

/-- Closed witness for C8: the empty entry list and a filter path matching
nothing both yield `(empty directory)` from both renderers, for an arbitrary
fully-populated option record. -/
theorem claim8_empty_directory_witness :
    formatTree ⟨[]⟩ "sub/dir" = "(empty directory)" ∧
    formatSubTree ⟨[⟨"other.ts", GitItemType.blob, some 3⟩]⟩ "missing"
      ⟨some true, some 2, some true, some [".ts"]⟩ = "(empty directory)" :=
  ⟨(claim8_empty_directory ⟨[]⟩ "sub/dir" ⟨none, none, none, none⟩).1 (by decide),
   (claim8_empty_directory ⟨[⟨"other.ts", GitItemType.blob, some 3⟩]⟩ "missing"
      ⟨some true, some 2, some true, some [".ts"]⟩).2 (by decide)⟩

/-! ### Locating nodes by segment path (plain trees) -/

theorem nodeAtL_nil_path {cs : List TreeNode} {n : TreeNode} : ¬ NodeAtL cs [] n := by
  intro h
  cases h

@[simp] theorem exAt_nil_path {cs : List TreeNode} : ¬ ExAt cs [] := by
  rintro ⟨n, h⟩
  exact nodeAtL_nil_path h

@[simp] theorem exDirAt_nil_path {cs : List TreeNode} : ¬ ExDirAt cs [] := by
  rintro ⟨n, h, _⟩
  exact nodeAtL_nil_path h

@[simp] theorem exAt_nil_list {p : List String} : ¬ ExAt [] p := by
  rintro ⟨n, h⟩
  cases h <;> simp_all

@[simp] theorem exDirAt_nil_list {p : List String} : ¬ ExDirAt [] p := by
  rintro ⟨n, h, _⟩
  cases h <;> simp_all

theorem exAt_cons_path {cs : List TreeNode} {s : String} {p : List String} :
    ExAt cs (s :: p) ↔ ∃ c ∈ cs, c.name = s ∧ (p = [] ∨ ExAt c.children p) := by
  constructor
  · rintro ⟨n, h⟩
    cases h with
    | here hmem hname => exact ⟨_, hmem, hname, Or.inl rfl⟩
    | there hmem hname hrest => exact ⟨_, hmem, hname, Or.inr ⟨_, hrest⟩⟩
  · rintro ⟨c, hmem, hname, hp | ⟨n, hn⟩⟩
    · subst hp
      exact ⟨c, NodeAtL.here hmem hname⟩
    · exact ⟨n, NodeAtL.there hmem hname hn⟩

theorem exDirAt_cons_path {cs : List TreeNode} {s : String} {p : List String} :
    ExDirAt cs (s :: p) ↔
      ∃ c ∈ cs, c.name = s ∧
        ((p = [] ∧ c.isDirectory = true) ∨ ExDirAt c.children p) := by
  constructor
  · rintro ⟨n, h, hdir⟩
    cases h with
    | here hmem hname => exact ⟨_, hmem, hname, Or.inl ⟨rfl, hdir⟩⟩
    | there hmem hname hrest => exact ⟨_, hmem, hname, Or.inr ⟨_, hrest, hdir⟩⟩
  · rintro ⟨c, hmem, hname, ⟨hp, hdir⟩ | ⟨n, hn, hdir⟩⟩
    · subst hp
      exact ⟨c, NodeAtL.here hmem hname, hdir⟩
    · exact ⟨n, NodeAtL.there hmem hname hn, hdir⟩

/-- `NodeAtL` depends on the root list only through membership. -/
theorem nodeAtL_of_mem_iff {cs cs' : List TreeNode} (h : ∀ x, x ∈ cs → x ∈ cs')
    {p : List String} {n : TreeNode} (hn : NodeAtL cs p n) : NodeAtL cs' p n := by
  cases hn with
  | here hmem hname => exact NodeAtL.here (h _ hmem) hname
  | there hmem hname hrest => exact NodeAtL.there (h _ hmem) hname hrest

theorem exAt_sortPlain {cs : List TreeNode} {p : List String} :
    ExAt (sortPlain cs) p ↔ ExAt cs p :=
  ⟨fun ⟨n, h⟩ => ⟨n, nodeAtL_of_mem_iff (fun _ => sortPlain_mem.1) h⟩,
   fun ⟨n, h⟩ => ⟨n, nodeAtL_of_mem_iff (fun _ => sortPlain_mem.2) h⟩⟩

theorem exDirAt_sortPlain {cs : List TreeNode} {p : List String} :
    ExDirAt (sortPlain cs) p ↔ ExDirAt cs p :=
  ⟨fun ⟨n, h, hd⟩ => ⟨n, nodeAtL_of_mem_iff (fun _ => sortPlain_mem.1) h, hd⟩,
   fun ⟨n, h, hd⟩ => ⟨n, nodeAtL_of_mem_iff (fun _ => sortPlain_mem.2) h, hd⟩⟩

@[simp] theorem setDir_name (c : TreeNode) (b : Bool) : (c.setDir b).name = c.name := by
  cases c
  rfl

@[simp] theorem setDir_children (c : TreeNode) (b : Bool) :
    (c.setDir b).children = c.children := by
  cases c
  rfl

@[simp] theorem setDir_isDirectory (c : TreeNode) (b : Bool) :
    (c.setDir b).isDirectory = b := by
  cases c
  rfl

@[simp] theorem withChildren_name (c : TreeNode) (cs : List TreeNode) :
    (c.withChildren cs).name = c.name := by
  cases c
  rfl

@[simp] theorem withChildren_isDirectory (c : TreeNode) (cs : List TreeNode) :
    (c.withChildren cs).isDirectory = c.isDirectory := by
  cases c
  rfl

@[simp] theorem withChildren_children (c : TreeNode) (cs : List TreeNode) :
    (c.withChildren cs).children = cs := by
  cases c
  rfl

@[simp] theorem addNestedNode_name (parent : TreeNode) (parts : List String) (b : Bool) :
    (addNestedNode parent parts b).name = parent.name := by
  cases parts with
  | nil => rfl
  | cons x rest => simp [addNestedNode]

@[simp] theorem addNestedNode_isDirectory (parent : TreeNode) (parts : List String) (b : Bool) :
    (addNestedNode parent parts b).isDirectory = parent.isDirectory := by
  cases parts with
  | nil => rfl
  | cons x rest => simp [addNestedNode]

/-! ### Characterizing reachable paths after one plain insertion -/

theorem exAt_createIfMissing (cs : List TreeNode) (x : String) (d : Bool)
    (s : String) (p' : List String) :
    ExAt (if cs.any (fun c => c.name = x) then cs
          else cs ++ [TreeNode.node x d []]) (s :: p') ↔
      ExAt cs (s :: p') ∨ (s = x ∧ p' = []) := by
  split
  · next hany =>
    constructor
    · exact Or.inl
    · rintro (h | ⟨rfl, rfl⟩)
      · exact h
      · rcases List.any_eq_true.1 hany with ⟨c, hc, hname⟩
        exact exAt_cons_path.2 ⟨c, hc, by simpa using hname, Or.inl rfl⟩
  · rw [exAt_cons_path, exAt_cons_path]
    constructor
    · rintro ⟨c, hc, hname, hp⟩
      rcases List.mem_append.1 hc with hc | hc
      · exact Or.inl ⟨c, hc, hname, hp⟩
      · rcases List.mem_singleton.1 hc with rfl
        rcases hp with hp | hp
        · exact Or.inr ⟨by simpa [TreeNode.name] using hname.symm, hp⟩
        · simp [TreeNode.children] at hp
    · rintro (⟨c, hc, hname, hp⟩ | ⟨rfl, rfl⟩)
      · exact ⟨c, List.mem_append.2 (Or.inl hc), hname, hp⟩
      · exact ⟨TreeNode.node s d [], List.mem_append.2 (Or.inr (List.mem_singleton.2 rfl)),
          rfl, Or.inl rfl⟩


theorem addNestedNode_exAt :
    ∀ (parts : List String), parts ≠ [] →
      ∀ (b : Bool) (parent : TreeNode) (p : List String),
        ExAt (addNestedNode parent parts b).children p ↔
          ExAt parent.children p ∨ (p ≠ [] ∧ p <+: parts) := by
  intro parts
  induction parts with
  | nil => intro h; cases h rfl
  | cons x rest ih =>
    intro _ b parent p
    have hchildren :
        (addNestedNode parent (x :: rest) b).children =
          sortPlain
            (if rest.isEmpty then
               (if parent.children.any (fun c => c.name = x) then parent.children
                else parent.children ++ [TreeNode.node x (!rest.isEmpty || b) []])
             else
               (if parent.children.any (fun c => c.name = x) then parent.children
                else parent.children ++ [TreeNode.node x (!rest.isEmpty || b) []]).map
                 (fun c => if c.name = x then addNestedNode (c.setDir true) rest b else c)) := by
      simp only [addNestedNode, withChildren_children]
    rw [hchildren, exAt_sortPlain]
    rcases p with _ | ⟨s, p'⟩
    · by_cases hrest : rest.isEmpty <;> simp [hrest]
    · by_cases hrest : rest.isEmpty
      · rcases List.isEmpty_iff.1 hrest with rfl
        rw [if_pos (List.isEmpty_nil : (List.isEmpty ([] : List String)) = true), exAt_createIfMissing]
        simp [eq_comm]
      · have hrestne : rest ≠ [] := by simpa [List.isEmpty_iff] using hrest
        rw [if_neg hrest, exAt_cons_path]
        have hupdname : ∀ c : TreeNode,
            (if c.name = x then addNestedNode (c.setDir true) rest b else c).name = c.name := by
          intro c
          by_cases h : c.name = x <;> simp [h]
        have hmapform :
            (∃ c' ∈ (if parent.children.any (fun c => c.name = x) then parent.children
                else parent.children ++ [TreeNode.node x (!rest.isEmpty || b) []]).map
                  (fun c => if c.name = x then addNestedNode (c.setDir true) rest b else c),
              c'.name = s ∧ (p' = [] ∨ ExAt c'.children p')) ↔
            ∃ c ∈ (if parent.children.any (fun c => c.name = x) then parent.children
                else parent.children ++ [TreeNode.node x (!rest.isEmpty || b) []]),
              c.name = s ∧ (p' = [] ∨
                ExAt (if c.name = x then addNestedNode (c.setDir true) rest b else c).children p') := by
          constructor
          · rintro ⟨c', hc', hname, hp⟩
            rcases List.mem_map.1 hc' with ⟨c, hc, rfl⟩
            exact ⟨c, hc, by rw [← hupdname c]; exact hname, hp⟩
          · rintro ⟨c, hc, hname, hp⟩
            exact ⟨_, List.mem_map_of_mem _ hc, by rw [hupdname c]; exact hname, hp⟩
        rw [hmapform]
        by_cases hsx : s = x
        · subst hsx
          have hwitness : ∃ c ∈ (if parent.children.any (fun c => c.name = s) then parent.children
              else parent.children ++ [TreeNode.node s (!rest.isEmpty || b) []]), c.name = s := by
            split
            · next hany =>
              rcases List.any_eq_true.1 hany with ⟨c, hc, hname⟩
              exact ⟨c, hc, by simpa using hname⟩
            · exact ⟨TreeNode.node s (!rest.isEmpty || b) [],
                List.mem_append.2 (Or.inr (List.mem_singleton.2 rfl)), rfl⟩
          have hstep : ∀ c : TreeNode, c.name = s →
              ((p' = [] ∨
                ExAt (if c.name = s then addNestedNode (c.setDir true) rest b else c).children p') ↔
               ((p' = [] ∨ ExAt c.children p') ∨ (p' ≠ [] ∧ p' <+: rest))) := by
            intro c hname
            rw [if_pos hname, ih hrestne b (c.setDir true) p', setDir_children]
            tauto
          constructor
          · rintro ⟨c, hc, hname, hp⟩
            rcases (hstep c hname).1 hp with hp | hp
            · rcases (exAt_createIfMissing parent.children s (!rest.isEmpty || b) s p').1
                (exAt_cons_path.2 ⟨c, hc, hname, hp⟩) with h | h
              · exact Or.inl h
              · exact Or.inr ⟨by simp, by simp [h.2]⟩
            · exact Or.inr ⟨by simp, by simp [hp.2]⟩
          · rintro (h | ⟨-, hpre⟩)
            · rcases exAt_cons_path.1
                ((exAt_createIfMissing parent.children s (!rest.isEmpty || b) s p').2
                  (Or.inl h)) with ⟨c, hc, hname, hp⟩
              exact ⟨c, hc, hname, (hstep c hname).2 (Or.inl hp)⟩
            · rcases hwitness with ⟨c, hc, hname⟩
              rcases List.cons_prefix_cons.1 hpre with ⟨-, hpre'⟩
              by_cases hp' : p' = []
              · exact ⟨c, hc, hname, (hstep c hname).2 (Or.inl (Or.inl hp'))⟩
              · exact ⟨c, hc, hname, (hstep c hname).2 (Or.inr ⟨hp', hpre'⟩)⟩
        · have hId : ∀ c : TreeNode, c.name = s →
              (if c.name = x then addNestedNode (c.setDir true) rest b else c) = c := by
            intro c hname
            rw [if_neg (by rw [hname]; exact hsx)]
          constructor
          · rintro ⟨c, hc, hname, hp⟩
            rw [hId c hname] at hp
            have := (exAt_createIfMissing parent.children x (!rest.isEmpty || b) s p').1
              (exAt_cons_path.2 ⟨c, hc, hname, hp⟩)
            rcases this with h | ⟨h, -⟩
            · exact Or.inl h
            · exact absurd h hsx
          · rintro (h | ⟨-, hpre⟩)
            · rcases exAt_cons_path.1
                ((exAt_createIfMissing parent.children x (!rest.isEmpty || b) s p').2
                  (Or.inl h)) with ⟨c, hc, hname, hp⟩
              refine ⟨c, hc, hname, ?_⟩
              rw [hId c hname]
              exact hp
            · rcases List.cons_prefix_cons.1 hpre with ⟨h, -⟩
              exact absurd h hsx

theorem addNestedNode_exDirAt_mono :
    ∀ (parts : List String) (b : Bool) (parent : TreeNode) (p : List String),
      ExDirAt parent.children p → ExDirAt (addNestedNode parent parts b).children p := by
  intro parts
  induction parts with
  | nil => exact fun b parent p h => h
  | cons x rest ih =>
    intro b parent p h
    have hchildren :
        (addNestedNode parent (x :: rest) b).children =
          sortPlain
            (if rest.isEmpty then
               (if parent.children.any (fun c => c.name = x) then parent.children
                else parent.children ++ [TreeNode.node x (!rest.isEmpty || b) []])
             else
               (if parent.children.any (fun c => c.name = x) then parent.children
                else parent.children ++ [TreeNode.node x (!rest.isEmpty || b) []]).map
                 (fun c => if c.name = x then addNestedNode (c.setDir true) rest b else c)) := by
      simp only [addNestedNode, withChildren_children]
    rw [hchildren, exDirAt_sortPlain]
    rcases p with _ | ⟨s, p'⟩
    · exact absurd h exDirAt_nil_path
    rcases exDirAt_cons_path.1 h with ⟨c, hc, hname, hcase⟩
    have hmem1 : c ∈ (if parent.children.any (fun c => c.name = x) then parent.children
        else parent.children ++ [TreeNode.node x (!rest.isEmpty || b) []]) := by
      split
      · exact hc
      · exact List.mem_append.2 (Or.inl hc)
    split
    · exact exDirAt_cons_path.2 ⟨c, hmem1, hname, hcase⟩
    · refine exDirAt_cons_path.2
        ⟨if c.name = x then addNestedNode (c.setDir true) rest b else c,
         List.mem_map_of_mem _ hmem1, ?_, ?_⟩
      · by_cases hcx : c.name = x
        · rw [if_pos hcx, addNestedNode_name, setDir_name]
          exact hname
        · rw [if_neg hcx]
          exact hname
      · by_cases hcx : c.name = x
        · rw [if_pos hcx]
          rcases hcase with ⟨rfl, hdir⟩ | hsub
          · exact Or.inl ⟨rfl, by simp⟩
          · exact Or.inr (by
              have := ih b (c.setDir true) p' (by simpa [setDir_children] using hsub)
              simpa using this)
        · rw [if_neg hcx]
          exact hcase

theorem addNestedNode_exDirAt_proper :
    ∀ (parts : List String) (b : Bool) (parent : TreeNode) (p : List String),
      p ≠ [] → p <+: parts → p ≠ parts →
      ExDirAt (addNestedNode parent parts b).children p := by
  intro parts
  induction parts with
  | nil => intro b parent p hne hpre _; exact absurd (List.prefix_nil.1 hpre) hne
  | cons x rest ih =>
    intro b parent p hne hpre hproper
    have hchildren :
        (addNestedNode parent (x :: rest) b).children =
          sortPlain
            (if rest.isEmpty then
               (if parent.children.any (fun c => c.name = x) then parent.children
                else parent.children ++ [TreeNode.node x (!rest.isEmpty || b) []])
             else
               (if parent.children.any (fun c => c.name = x) then parent.children
                else parent.children ++ [TreeNode.node x (!rest.isEmpty || b) []]).map
                 (fun c => if c.name = x then addNestedNode (c.setDir true) rest b else c)) := by
      simp only [addNestedNode, withChildren_children]
    rw [hchildren, exDirAt_sortPlain]
    rcases p with _ | ⟨s, p'⟩
    · exact absurd rfl hne
    rcases List.cons_prefix_cons.1 hpre with ⟨rfl, hpre'⟩
    rcases rest with _ | ⟨r, rs⟩
    · rcases List.prefix_nil.1 hpre' with rfl
      exact absurd rfl hproper
    · rw [if_neg (by simp)]
      have hwitness : ∃ c ∈ (if parent.children.any (fun c => c.name = s) then parent.children
          else parent.children ++ [TreeNode.node s (!(r :: rs).isEmpty || b) []]), c.name = s := by
        split
        · next hany =>
          rcases List.any_eq_true.1 hany with ⟨c, hc, hname⟩
          exact ⟨c, hc, by simpa using hname⟩
        · exact ⟨TreeNode.node s (!(r :: rs).isEmpty || b) [],
            List.mem_append.2 (Or.inr (List.mem_singleton.2 rfl)), rfl⟩
      rcases hwitness with ⟨c, hc, hname⟩
      refine exDirAt_cons_path.2
        ⟨if c.name = s then addNestedNode (c.setDir true) (r :: rs) b else c,
         List.mem_map_of_mem _ hc, ?_, ?_⟩
      · rw [if_pos hname, addNestedNode_name, setDir_name]
        exact hname
      rw [if_pos hname]
      rcases p' with _ | ⟨t, q⟩
      · exact Or.inl ⟨rfl, by simp⟩
      · refine Or.inr ?_
        have hproper' : t :: q ≠ r :: rs := by
          intro hEq
          exact hproper (by rw [hEq])
        have := ih b (c.setDir true) (t :: q) (by simp) hpre' hproper'
        exact this

theorem buildTreeStep_exAt (nd : String) (acc : List TreeNode) (it : GitHubTreeItem)
    (p : List String) :
    ExAt (buildTreeStep nd acc it) p ↔ ExAt acc p ∨ plainContrib nd it p := by
  unfold plainContrib
  cases hrel : relParts nd it.path with
  | none => simp [buildTreeStep, hrel]
  | some parts =>
    cases parts with
    | nil =>
      simp only [buildTreeStep, hrel]
      constructor
      · exact Or.inl
      · rintro (h | ⟨hne, hpre⟩)
        · exact h
        · exact absurd (List.prefix_nil.1 hpre) hne
    | cons x rest =>
      have hkey : (addNestedNode (TreeNode.node "" true acc) (x :: rest)
          (it.type == GitItemType.tree)).children = sortPlain (buildTreeStep nd acc it) := by
        simp only [buildTreeStep, hrel, addNestedNode, TreeNode.withChildren,
          TreeNode.children]
      have h1 : ExAt (buildTreeStep nd acc it) p ↔
          ExAt (addNestedNode (TreeNode.node "" true acc) (x :: rest)
            (it.type == GitItemType.tree)).children p := by
        rw [hkey, exAt_sortPlain]
      rw [h1, addNestedNode_exAt (x :: rest) (by simp) _ _ p]
      rfl

theorem buildTreeStep_exDirAt_mono (nd : String) (acc : List TreeNode) (it : GitHubTreeItem)
    (p : List String) (h : ExDirAt acc p) : ExDirAt (buildTreeStep nd acc it) p := by
  cases hrel : relParts nd it.path with
  | none => simpa [buildTreeStep, hrel] using h
  | some parts =>
    cases parts with
    | nil => simpa [buildTreeStep, hrel] using h
    | cons x rest =>
      have hkey : (addNestedNode (TreeNode.node "" true acc) (x :: rest)
          (it.type == GitItemType.tree)).children = sortPlain (buildTreeStep nd acc it) := by
        simp only [buildTreeStep, hrel, addNestedNode, TreeNode.withChildren,
          TreeNode.children]
      have := addNestedNode_exDirAt_mono (x :: rest) (it.type == GitItemType.tree)
        (TreeNode.node "" true acc) p (by simpa [TreeNode.children] using h)
      rw [hkey, exDirAt_sortPlain] at this
      exact this

theorem buildTreeStep_exDirAt_proper (nd : String) (acc : List TreeNode)
    (it : GitHubTreeItem) (p : List String) (h : properContrib nd it p) :
    ExDirAt (buildTreeStep nd acc it) p := by
  unfold properContrib at h
  cases hrel : relParts nd it.path with
  | none => simp [hrel] at h
  | some parts =>
    rw [hrel] at h
    rcases h with ⟨hne, hpre, hproper⟩
    cases parts with
    | nil => exact absurd (List.prefix_nil.1 hpre) hne
    | cons x rest =>
      have hkey : (addNestedNode (TreeNode.node "" true acc) (x :: rest)
          (it.type == GitItemType.tree)).children = sortPlain (buildTreeStep nd acc it) := by
        simp only [buildTreeStep, hrel, addNestedNode, TreeNode.withChildren,
          TreeNode.children]
      have := addNestedNode_exDirAt_proper (x :: rest) (it.type == GitItemType.tree)
        (TreeNode.node "" true acc) p hne hpre hproper
      rw [hkey, exDirAt_sortPlain] at this
      exact this

theorem foldl_buildTreeStep_exAt (nd : String) (l : List GitHubTreeItem) :
    ∀ (acc : List TreeNode) (p : List String),
      ExAt (l.foldl (buildTreeStep nd) acc) p ↔
        ExAt acc p ∨ ∃ it ∈ l, plainContrib nd it p := by
  induction l with
  | nil => intro acc p; simp
  | cons it l ih =>
    intro acc p
    rw [List.foldl_cons, ih, buildTreeStep_exAt]
    constructor
    · rintro ((h | h) | ⟨it', hit', h⟩)
      · exact Or.inl h
      · exact Or.inr ⟨it, List.mem_cons_self it l, h⟩
      · exact Or.inr ⟨it', List.mem_cons_of_mem it hit', h⟩
    · rintro (h | ⟨it', hit', h⟩)
      · exact Or.inl (Or.inl h)
      · rcases List.mem_cons.1 hit' with rfl | hit'
        · exact Or.inl (Or.inr h)
        · exact Or.inr ⟨it', hit', h⟩

theorem foldl_buildTreeStep_exDirAt (nd : String) (l : List GitHubTreeItem) :
    ∀ (acc : List TreeNode) (p : List String),
      (ExDirAt acc p ∨ ∃ it ∈ l, properContrib nd it p) →
      ExDirAt (l.foldl (buildTreeStep nd) acc) p := by
  induction l with
  | nil =>
    intro acc p h
    rcases h with h | ⟨it, hit, _⟩
    · exact h
    · simp at hit
  | cons it l ih =>
    intro acc p h
    rw [List.foldl_cons]
    rcases h with h | ⟨it', hit', h⟩
    · exact ih _ p (Or.inl (buildTreeStep_exDirAt_mono nd acc it p h))
    · rcases List.mem_cons.1 hit' with rfl | hit'
      · exact ih _ p (Or.inl (buildTreeStep_exDirAt_proper nd acc it' p h))
      · exact ih _ p (Or.inr ⟨it', hit', h⟩)

/-- Full characterization of the paths present in a plain built tree: exactly
the nonempty prefixes of the relative segment lists of the selected items. -/
theorem buildTree_exAt (items : List GitHubTreeItem) (dirPath : String) (p : List String) :
    ExAt (buildTree items dirPath).children p ↔
      ∃ it ∈ items, filterPredB (normalizePath dirPath) it = true ∧
        plainContrib (normalizePath dirPath) it p := by
  unfold buildTree
  simp only [TreeNode.children]
  rw [exAt_sortPlain, foldl_buildTreeStep_exAt]
  simp only [exAt_nil_list, false_or, List.mem_filter]
  constructor
  · rintro ⟨it, ⟨hit, hf⟩, h⟩
    exact ⟨it, hit, hf, h⟩
  · rintro ⟨it, hit, hf, h⟩
    exact ⟨it, ⟨hit, hf⟩, h⟩

/-- Every proper nonempty relative prefix of a selected item is present in the
plain built tree as a directory, whatever the order of the entry list. -/
theorem buildTree_exDirAt (items : List GitHubTreeItem) (dirPath : String) (p : List String)
    (h : ∃ it ∈ items, filterPredB (normalizePath dirPath) it = true ∧
      properContrib (normalizePath dirPath) it p) :
    ExDirAt (buildTree items dirPath).children p := by
  unfold buildTree
  simp only [TreeNode.children]
  rw [exDirAt_sortPlain]
  refine foldl_buildTreeStep_exDirAt _ _ _ _ (Or.inr ?_)
  rcases h with ⟨it, hit, hf, h⟩
  exact ⟨it, List.mem_filter.2 ⟨hit, hf⟩, h⟩

/-! ### Locating nodes by segment path (enhanced trees) -/

theorem nodeAtLE_nil_path {cs : List EnhancedTreeNode} {n : EnhancedTreeNode} :
    ¬ NodeAtLE cs [] n := by
  intro h
  cases h

@[simp] theorem exAtE_nil_path {cs : List EnhancedTreeNode} : ¬ ExAtE cs [] := by
  rintro ⟨n, h⟩
  exact nodeAtLE_nil_path h

@[simp] theorem exDirAtE_nil_path {cs : List EnhancedTreeNode} : ¬ ExDirAtE cs [] := by
  rintro ⟨n, h, _⟩
  exact nodeAtLE_nil_path h

@[simp] theorem exAtE_nil_list {p : List String} : ¬ ExAtE [] p := by
  rintro ⟨n, h⟩
  cases h <;> simp_all

@[simp] theorem exDirAtE_nil_list {p : List String} : ¬ ExDirAtE [] p := by
  rintro ⟨n, h, _⟩
  cases h <;> simp_all

theorem exAtE_cons_path {cs : List EnhancedTreeNode} {s : String} {p : List String} :
    ExAtE cs (s :: p) ↔ ∃ c ∈ cs, c.name = s ∧ (p = [] ∨ ExAtE c.children p) := by
  constructor
  · rintro ⟨n, h⟩
    cases h with
    | here hmem hname => exact ⟨_, hmem, hname, Or.inl rfl⟩
    | there hmem hname hrest => exact ⟨_, hmem, hname, Or.inr ⟨_, hrest⟩⟩
  · rintro ⟨c, hmem, hname, hp | ⟨n, hn⟩⟩
    · subst hp
      exact ⟨c, NodeAtLE.here hmem hname⟩
    · exact ⟨n, NodeAtLE.there hmem hname hn⟩

theorem exDirAtE_cons_path {cs : List EnhancedTreeNode} {s : String} {p : List String} :
    ExDirAtE cs (s :: p) ↔
      ∃ c ∈ cs, c.name = s ∧
        ((p = [] ∧ c.isDirectory = true) ∨ ExDirAtE c.children p) := by
  constructor
  · rintro ⟨n, h, hdir⟩
    cases h with
    | here hmem hname => exact ⟨_, hmem, hname, Or.inl ⟨rfl, hdir⟩⟩
    | there hmem hname hrest => exact ⟨_, hmem, hname, Or.inr ⟨_, hrest, hdir⟩⟩
  · rintro ⟨c, hmem, hname, ⟨hp, hdir⟩ | ⟨n, hn, hdir⟩⟩
    · subst hp
      exact ⟨c, NodeAtLE.here hmem hname, hdir⟩
    · exact ⟨n, NodeAtLE.there hmem hname hn, hdir⟩

theorem nodeAtLE_of_mem_iff {cs cs' : List EnhancedTreeNode} (h : ∀ x, x ∈ cs → x ∈ cs')
    {p : List String} {n : EnhancedTreeNode} (hn : NodeAtLE cs p n) : NodeAtLE cs' p n := by
  cases hn with
  | here hmem hname => exact NodeAtLE.here (h _ hmem) hname
  | there hmem hname hrest => exact NodeAtLE.there (h _ hmem) hname hrest

theorem exAtE_sortEnh {cs : List EnhancedTreeNode} {p : List String} :
    ExAtE (sortEnh cs) p ↔ ExAtE cs p :=
  ⟨fun ⟨n, h⟩ => ⟨n, nodeAtLE_of_mem_iff (fun _ => sortEnh_mem.1) h⟩,
   fun ⟨n, h⟩ => ⟨n, nodeAtLE_of_mem_iff (fun _ => sortEnh_mem.2) h⟩⟩

theorem exDirAtE_sortEnh {cs : List EnhancedTreeNode} {p : List String} :
    ExDirAtE (sortEnh cs) p ↔ ExDirAtE cs p :=
  ⟨fun ⟨n, h, hd⟩ => ⟨n, nodeAtLE_of_mem_iff (fun _ => sortEnh_mem.1) h, hd⟩,
   fun ⟨n, h, hd⟩ => ⟨n, nodeAtLE_of_mem_iff (fun _ => sortEnh_mem.2) h, hd⟩⟩

@[simp] theorem esetDir_name (c : EnhancedTreeNode) (b : Bool) : (c.setDir b).name = c.name := by
  cases c
  rfl

@[simp] theorem esetDir_children (c : EnhancedTreeNode) (b : Bool) :
    (c.setDir b).children = c.children := by
  cases c
  rfl

@[simp] theorem esetDir_isDirectory (c : EnhancedTreeNode) (b : Bool) :
    (c.setDir b).isDirectory = b := by
  cases c
  rfl

@[simp] theorem ewithChildren_name (c : EnhancedTreeNode) (cs : List EnhancedTreeNode) :
    (c.withChildren cs).name = c.name := by
  cases c
  rfl

@[simp] theorem ewithChildren_isDirectory (c : EnhancedTreeNode) (cs : List EnhancedTreeNode) :
    (c.withChildren cs).isDirectory = c.isDirectory := by
  cases c
  rfl

@[simp] theorem ewithChildren_children (c : EnhancedTreeNode) (cs : List EnhancedTreeNode) :
    (c.withChildren cs).children = cs := by
  cases c
  rfl

@[simp] theorem addNestedEnhancedNode_name (parent : EnhancedTreeNode) (parts : List String)
    (it : GitHubTreeItem) (dp : Nat) (options : SubTreeOptions) :
    (addNestedEnhancedNode parent parts it dp options).name = parent.name := by
  cases parts with
  | nil => rfl
  | cons x rest =>
    unfold addNestedEnhancedNode
    split
    · rfl
    · simp

@[simp] theorem addNestedEnhancedNode_isDirectory (parent : EnhancedTreeNode)
    (parts : List String) (it : GitHubTreeItem) (dp : Nat) (options : SubTreeOptions) :
    (addNestedEnhancedNode parent parts it dp options).isDirectory = parent.isDirectory := by
  cases parts with
  | nil => rfl
  | cons x rest =>
    unfold addNestedEnhancedNode
    split
    · rfl
    · simp

/-- Last segment of `l`, with `""` substituting for the (unreachable) empty
case. -/
theorem getLastD_cons_of_ne_nil {x : String} {rest : List String} (h : rest ≠ [])
    (d d' : String) : (x :: rest).getLastD d = rest.getLastD d' := by
  cases rest with
  | nil => exact absurd rfl h
  | cons r rs => rw [List.getLastD_cons, List.getLastD_cons, List.getLastD_cons]

theorem exAtE_createIfMissing (cs : List EnhancedTreeNode) (x : String) (d : Bool)
    (sz : Option Nat) (dp : Nat) (s : String) (p' : List String) :
    ExAtE (if cs.any (fun c => c.name = x) then cs
           else cs ++ [EnhancedTreeNode.node x d sz [] dp]) (s :: p') ↔
      ExAtE cs (s :: p') ∨ (s = x ∧ p' = []) := by
  split
  · next hany =>
    constructor
    · exact Or.inl
    · rintro (h | ⟨rfl, rfl⟩)
      · exact h
      · rcases List.any_eq_true.1 hany with ⟨c, hc, hname⟩
        exact exAtE_cons_path.2 ⟨c, hc, by simpa using hname, Or.inl rfl⟩
  · rw [exAtE_cons_path, exAtE_cons_path]
    constructor
    · rintro ⟨c, hc, hname, hp⟩
      rcases List.mem_append.1 hc with hc | hc
      · exact Or.inl ⟨c, hc, hname, hp⟩
      · rcases List.mem_singleton.1 hc with rfl
        rcases hp with hp | hp
        · exact Or.inr ⟨by simpa [EnhancedTreeNode.name] using hname.symm, hp⟩
        · simp [EnhancedTreeNode.children] at hp
    · rintro (⟨c, hc, hname, hp⟩ | ⟨rfl, rfl⟩)
      · exact ⟨c, List.mem_append.2 (Or.inl hc), hname, hp⟩
      · exact ⟨EnhancedTreeNode.node s d sz [] dp,
          List.mem_append.2 (Or.inr (List.mem_singleton.2 rfl)), rfl, Or.inl rfl⟩

theorem addNestedEnhancedNode_exAt :
    ∀ (parts : List String), parts ≠ [] →
      ∀ (it : GitHubTreeItem) (dp : Nat) (options : SubTreeOptions)
        (parent : EnhancedTreeNode) (p : List String),
        ExAtE (addNestedEnhancedNode parent parts it dp options).children p ↔
          ExAtE parent.children p ∨
            (p ≠ [] ∧ p <+: parts ∧
              (p = parts → it.type = GitItemType.tree ∨
                matchesExtFilter (parts.getLastD "") options.fileExtFilter = true)) := by
  intro parts
  induction parts with
  | nil => intro h; cases h rfl
  | cons x rest ih =>
    intro _ it dp options parent p
    by_cases hskip : (rest.isEmpty && (it.type == GitItemType.blob) &&
        !matchesExtFilter x options.fileExtFilter) = true
    · have hres : addNestedEnhancedNode parent (x :: rest) it dp options = parent := by
        simp only [addNestedEnhancedNode]
        rw [if_pos hskip]
      rw [hres]
      simp only [Bool.and_eq_true, Bool.not_eq_true', beq_iff_eq] at hskip
      rcases hskip with ⟨⟨hrest, htype⟩, hmatch⟩
      rcases List.isEmpty_iff.1 hrest with rfl
      constructor
      · exact Or.inl
      · rintro (h | ⟨hne, hpre, hcond⟩)
        · exact h
        · rcases p with _ | ⟨s, p'⟩
          · exact absurd rfl hne
          rcases List.cons_prefix_cons.1 hpre with ⟨rfl, hpre'⟩
          rcases List.prefix_nil.1 hpre' with rfl
          rcases hcond rfl with h | h
          · rw [htype] at h
            cases h
          · rw [List.getLastD_cons, List.getLastD_nil] at h
            rw [hmatch] at h
            cases h
    · have hchildren :
          (addNestedEnhancedNode parent (x :: rest) it dp options).children =
            sortEnh
              (if rest.isEmpty then
                 (if parent.children.any (fun c => c.name = x) then parent.children
                  else parent.children ++ [EnhancedTreeNode.node x
                    (!rest.isEmpty || it.type == GitItemType.tree)
                    (if !rest.isEmpty || it.type == GitItemType.tree then none else it.size)
                    [] dp])
               else
                 (if parent.children.any (fun c => c.name = x) then parent.children
                  else parent.children ++ [EnhancedTreeNode.node x
                    (!rest.isEmpty || it.type == GitItemType.tree)
                    (if !rest.isEmpty || it.type == GitItemType.tree then none else it.size)
                    [] dp]).map
                   (fun c => if c.name = x then
                      addNestedEnhancedNode (c.setDir true) rest it (dp + 1) options
                    else c)) := by
        simp only [addNestedEnhancedNode]
        rw [if_neg hskip]
        simp only [ewithChildren_children]
      rw [hchildren, exAtE_sortEnh]
      rcases p with _ | ⟨s, p'⟩
      · by_cases hrest : rest.isEmpty <;> simp [hrest]
      · rcases rest with _ | ⟨r, rs⟩
        · have hcond : it.type = GitItemType.tree ∨
              matchesExtFilter x options.fileExtFilter = true := by
            cases htype : it.type with
            | tree => exact Or.inl rfl
            | blob =>
              cases hmb : matchesExtFilter x options.fileExtFilter with
              | true => exact Or.inr rfl
              | false => exact absurd (by simp [htype, hmb]) hskip
          rw [if_pos (List.isEmpty_nil : (List.isEmpty ([] : List String)) = true),
            exAtE_createIfMissing]
          constructor
          · rintro (h | ⟨rfl, rfl⟩)
            · exact Or.inl h
            · refine Or.inr ⟨by simp, by simp, fun _ => ?_⟩
              rw [List.getLastD_cons, List.getLastD_nil]
              exact hcond
          · rintro (h | ⟨hne, hpre, -⟩)
            · exact Or.inl h
            · rcases List.cons_prefix_cons.1 hpre with ⟨rfl, hpre'⟩
              rcases List.prefix_nil.1 hpre' with rfl
              exact Or.inr ⟨rfl, rfl⟩
        · have hrestne : (r :: rs) ≠ ([] : List String) := by simp
          rw [if_neg (by simp)]
          rw [exAtE_cons_path]
          have hupdname : ∀ c : EnhancedTreeNode,
              (if c.name = x then
                 addNestedEnhancedNode (c.setDir true) (r :: rs) it (dp + 1) options
               else c).name = c.name := by
            intro c
            by_cases h : c.name = x <;> simp [h]
          have hmapform :
              (∃ c' ∈ (if parent.children.any (fun c => c.name = x) then parent.children
                  else parent.children ++ [EnhancedTreeNode.node x
                    (!(r :: rs).isEmpty || it.type == GitItemType.tree)
                    (if !(r :: rs).isEmpty || it.type == GitItemType.tree then none else it.size)
                    [] dp]).map
                    (fun c => if c.name = x then
                       addNestedEnhancedNode (c.setDir true) (r :: rs) it (dp + 1) options
                     else c),
                c'.name = s ∧ (p' = [] ∨ ExAtE c'.children p')) ↔
              ∃ c ∈ (if parent.children.any (fun c => c.name = x) then parent.children
                  else parent.children ++ [EnhancedTreeNode.node x
                    (!(r :: rs).isEmpty || it.type == GitItemType.tree)
                    (if !(r :: rs).isEmpty || it.type == GitItemType.tree then none else it.size)
                    [] dp]),
                c.name = s ∧ (p' = [] ∨
                  ExAtE (if c.name = x then
                      addNestedEnhancedNode (c.setDir true) (r :: rs) it (dp + 1) options
                    else c).children p') := by
            constructor
            · rintro ⟨c', hc', hname, hp⟩
              rcases List.mem_map.1 hc' with ⟨c, hc, rfl⟩
              exact ⟨c, hc, by rw [← hupdname c]; exact hname, hp⟩
            · rintro ⟨c, hc, hname, hp⟩
              exact ⟨_, List.mem_map_of_mem _ hc, by rw [hupdname c]; exact hname, hp⟩
          rw [hmapform]
          by_cases hsx : s = x
          · subst hsx
            have hwitness : ∃ c ∈ (if parent.children.any (fun c => c.name = s) then
                parent.children
                else parent.children ++ [EnhancedTreeNode.node s
                  (!(r :: rs).isEmpty || it.type == GitItemType.tree)
                  (if !(r :: rs).isEmpty || it.type == GitItemType.tree then none else it.size)
                  [] dp]), c.name = s := by
              split
              · next hany =>
                rcases List.any_eq_true.1 hany with ⟨c, hc, hname⟩
                exact ⟨c, hc, by simpa using hname⟩
              · exact ⟨EnhancedTreeNode.node s
                  (!(r :: rs).isEmpty || it.type == GitItemType.tree)
                  (if !(r :: rs).isEmpty || it.type == GitItemType.tree then none else it.size)
                  [] dp,
                  List.mem_append.2 (Or.inr (List.mem_singleton.2 rfl)), rfl⟩
            have hstep : ∀ c : EnhancedTreeNode, c.name = s →
                ((p' = [] ∨
                  ExAtE (if c.name = s then
                      addNestedEnhancedNode (c.setDir true) (r :: rs) it (dp + 1) options
                    else c).children p') ↔
                 ((p' = [] ∨ ExAtE c.children p') ∨
                   (p' ≠ [] ∧ p' <+: (r :: rs) ∧
                     (p' = (r :: rs) → it.type = GitItemType.tree ∨
                       matchesExtFilter ((r :: rs).getLastD "")
                         options.fileExtFilter = true)))) := by
              intro c hname
              rw [if_pos hname, ih hrestne it (dp + 1) options (c.setDir true) p',
                esetDir_children]
              tauto
            constructor
            · rintro ⟨c, hc, hname, hp⟩
              rcases (hstep c hname).1 hp with hp | hp
              · rcases (exAtE_createIfMissing parent.children s _ _ dp s p').1
                  (exAtE_cons_path.2 ⟨c, hc, hname, hp⟩) with h | h
                · exact Or.inl h
                · refine Or.inr ⟨by simp, by simp [h.2], fun hEq => ?_⟩
                  rcases h with ⟨-, rfl⟩
                  simp at hEq
              · refine Or.inr ⟨by simp, by simp [hp.2.1], fun hEq => ?_⟩
                have : p' = r :: rs := by
                  injection hEq
                rw [getLastD_cons_of_ne_nil hrestne "" ""]
                exact hp.2.2 this
            · rintro (h | ⟨-, hpre, hcond⟩)
              · rcases exAtE_cons_path.1
                  ((exAtE_createIfMissing parent.children s _ _ dp s p').2
                    (Or.inl h)) with ⟨c, hc, hname, hp⟩
                exact ⟨c, hc, hname, (hstep c hname).2 (Or.inl hp)⟩
              · rcases hwitness with ⟨c, hc, hname⟩
                rcases List.cons_prefix_cons.1 hpre with ⟨-, hpre'⟩
                by_cases hp' : p' = []
                · exact ⟨c, hc, hname, (hstep c hname).2 (Or.inl (Or.inl hp'))⟩
                · refine ⟨c, hc, hname, (hstep c hname).2 (Or.inr ⟨hp', hpre', fun hEq => ?_⟩)⟩
                  rw [← getLastD_cons_of_ne_nil hrestne "" ""]
                  exact hcond (by rw [hEq])
          · have hId : ∀ c : EnhancedTreeNode, c.name = s →
                (if c.name = x then
                   addNestedEnhancedNode (c.setDir true) (r :: rs) it (dp + 1) options
                 else c) = c := by
              intro c hname
              rw [if_neg (by rw [hname]; exact hsx)]
            constructor
            · rintro ⟨c, hc, hname, hp⟩
              rw [hId c hname] at hp
              have := (exAtE_createIfMissing parent.children x _ _ dp s p').1
                (exAtE_cons_path.2 ⟨c, hc, hname, hp⟩)
              rcases this with h | ⟨h, -⟩
              · exact Or.inl h
              · exact absurd h hsx
            · rintro (h | ⟨-, hpre, -⟩)
              · rcases exAtE_cons_path.1
                  ((exAtE_createIfMissing parent.children x _ _ dp s p').2
                    (Or.inl h)) with ⟨c, hc, hname, hp⟩
                refine ⟨c, hc, hname, ?_⟩
                rw [hId c hname]
                exact hp
              · rcases List.cons_prefix_cons.1 hpre with ⟨h, -⟩
                exact absurd h hsx

theorem addNestedEnhancedNode_exDirAt_mono :
    ∀ (parts : List String) (it : GitHubTreeItem) (dp : Nat) (options : SubTreeOptions)
      (parent : EnhancedTreeNode) (p : List String),
      ExDirAtE parent.children p →
      ExDirAtE (addNestedEnhancedNode parent parts it dp options).children p := by
  intro parts
  induction parts with
  | nil => exact fun it dp options parent p h => h
  | cons x rest ih =>
    intro it dp options parent p h
    by_cases hskip : (rest.isEmpty && (it.type == GitItemType.blob) &&
        !matchesExtFilter x options.fileExtFilter) = true
    · have hres : addNestedEnhancedNode parent (x :: rest) it dp options = parent := by
        simp only [addNestedEnhancedNode]
        rw [if_pos hskip]
      rw [hres]
      exact h
    · have hchildren :
          (addNestedEnhancedNode parent (x :: rest) it dp options).children =
            sortEnh
              (if rest.isEmpty then
                 (if parent.children.any (fun c => c.name = x) then parent.children
                  else parent.children ++ [EnhancedTreeNode.node x
                    (!rest.isEmpty || it.type == GitItemType.tree)
                    (if !rest.isEmpty || it.type == GitItemType.tree then none else it.size)
                    [] dp])
               else
                 (if parent.children.any (fun c => c.name = x) then parent.children
                  else parent.children ++ [EnhancedTreeNode.node x
                    (!rest.isEmpty || it.type == GitItemType.tree)
                    (if !rest.isEmpty || it.type == GitItemType.tree then none else it.size)
                    [] dp]).map
                   (fun c => if c.name = x then
                      addNestedEnhancedNode (c.setDir true) rest it (dp + 1) options
                    else c)) := by
        simp only [addNestedEnhancedNode]
        rw [if_neg hskip]
        simp only [ewithChildren_children]
      rw [hchildren, exDirAtE_sortEnh]
      rcases p with _ | ⟨s, p'⟩
      · exact absurd h exDirAtE_nil_path
      rcases exDirAtE_cons_path.1 h with ⟨c, hc, hname, hcase⟩
      have hmem1 : c ∈ (if parent.children.any (fun c => c.name = x) then parent.children
          else parent.children ++ [EnhancedTreeNode.node x
            (!rest.isEmpty || it.type == GitItemType.tree)
            (if !rest.isEmpty || it.type == GitItemType.tree then none else it.size)
            [] dp]) := by
        split
        · exact hc
        · exact List.mem_append.2 (Or.inl hc)
      split
      · exact exDirAtE_cons_path.2 ⟨c, hmem1, hname, hcase⟩
      · refine exDirAtE_cons_path.2
          ⟨if c.name = x then addNestedEnhancedNode (c.setDir true) rest it (dp + 1) options
            else c,
           List.mem_map_of_mem _ hmem1, ?_, ?_⟩
        · by_cases hcx : c.name = x
          · rw [if_pos hcx, addNestedEnhancedNode_name, esetDir_name]
            exact hname
          · rw [if_neg hcx]
            exact hname
        · by_cases hcx : c.name = x
          · rw [if_pos hcx]
            rcases hcase with ⟨rfl, hdir⟩ | hsub
            · exact Or.inl ⟨rfl, by simp⟩
            · exact Or.inr (by
                have := ih it (dp + 1) options (c.setDir true) p'
                  (by simpa [esetDir_children] using hsub)
                simpa using this)
          · rw [if_neg hcx]
            exact hcase

theorem addNestedEnhancedNode_exDirAt_proper :
    ∀ (parts : List String) (it : GitHubTreeItem) (dp : Nat) (options : SubTreeOptions)
      (parent : EnhancedTreeNode) (p : List String),
      p ≠ [] → p <+: parts → p ≠ parts →
      ExDirAtE (addNestedEnhancedNode parent parts it dp options).children p := by
  intro parts
  induction parts with
  | nil => intro it dp options parent p hne hpre _; exact absurd (List.prefix_nil.1 hpre) hne
  | cons x rest ih =>
    intro it dp options parent p hne hpre hproper
    rcases p with _ | ⟨s, p'⟩
    · exact absurd rfl hne
    rcases List.cons_prefix_cons.1 hpre with ⟨rfl, hpre'⟩
    rcases rest with _ | ⟨r, rs⟩
    · rcases List.prefix_nil.1 hpre' with rfl
      exact absurd rfl hproper
    have hskip : ¬ ((r :: rs).isEmpty && (it.type == GitItemType.blob) &&
        !matchesExtFilter s options.fileExtFilter) = true := by
      simp
    have hchildren :
        (addNestedEnhancedNode parent (s :: r :: rs) it dp options).children =
          sortEnh
            ((if parent.children.any (fun c => c.name = s) then parent.children
              else parent.children ++ [EnhancedTreeNode.node s
                (!(r :: rs).isEmpty || it.type == GitItemType.tree)
                (if !(r :: rs).isEmpty || it.type == GitItemType.tree then none else it.size)
                [] dp]).map
              (fun c => if c.name = s then
                 addNestedEnhancedNode (c.setDir true) (r :: rs) it (dp + 1) options
               else c)) := by
      simp only [addNestedEnhancedNode]
      rw [if_neg hskip]
      simp only [ewithChildren_children]
      rw [if_neg (by simp)]
    rw [hchildren, exDirAtE_sortEnh]
    have hwitness : ∃ c ∈ (if parent.children.any (fun c => c.name = s) then parent.children
        else parent.children ++ [EnhancedTreeNode.node s
          (!(r :: rs).isEmpty || it.type == GitItemType.tree)
          (if !(r :: rs).isEmpty || it.type == GitItemType.tree then none else it.size)
          [] dp]), c.name = s := by
      split
      · next hany =>
        rcases List.any_eq_true.1 hany with ⟨c, hc, hname⟩
        exact ⟨c, hc, by simpa using hname⟩
      · exact ⟨EnhancedTreeNode.node s
          (!(r :: rs).isEmpty || it.type == GitItemType.tree)
          (if !(r :: rs).isEmpty || it.type == GitItemType.tree then none else it.size)
          [] dp,
          List.mem_append.2 (Or.inr (List.mem_singleton.2 rfl)), rfl⟩
    rcases hwitness with ⟨c, hc, hname⟩
    refine exDirAtE_cons_path.2
      ⟨if c.name = s then addNestedEnhancedNode (c.setDir true) (r :: rs) it (dp + 1) options
        else c,
       List.mem_map_of_mem _ hc, ?_, ?_⟩
    · rw [if_pos hname, addNestedEnhancedNode_name, esetDir_name]
      exact hname
    rw [if_pos hname]
    rcases p' with _ | ⟨t, q⟩
    · exact Or.inl ⟨rfl, by simp⟩
    · refine Or.inr ?_
      have hproper' : t :: q ≠ r :: rs := by
        intro hEq
        exact hproper (by rw [hEq])
      exact ih it (dp + 1) options (c.setDir true) (t :: q) (by simp) hpre' hproper'

theorem buildEnhancedTreeStep_exAt (nd : String) (options : SubTreeOptions)
    (acc : List EnhancedTreeNode) (it : GitHubTreeItem) (p : List String) :
    ExAtE (buildEnhancedTreeStep nd options acc it) p ↔
      ExAtE acc p ∨ enhContrib nd options it p := by
  unfold enhContrib
  cases hrel : relParts nd it.path with
  | none => simp [buildEnhancedTreeStep, hrel]
  | some parts =>
    cases parts with
    | nil =>
      simp only [buildEnhancedTreeStep, hrel]
      constructor
      · exact Or.inl
      · rintro (h | ⟨hne, hpre, -⟩)
        · exact h
        · exact absurd (List.prefix_nil.1 hpre) hne
    | cons x rest =>
      by_cases hskip : (rest.isEmpty && (it.type == GitItemType.blob) &&
          !matchesExtFilter x options.fileExtFilter) = true
      · have hres : buildEnhancedTreeStep nd options acc it = acc := by
          simp only [buildEnhancedTreeStep, hrel]
          rw [if_pos hskip]
        rw [hres]
        simp only [Bool.and_eq_true, Bool.not_eq_true', beq_iff_eq] at hskip
        rcases hskip with ⟨⟨hrest, htype⟩, hmatch⟩
        rcases List.isEmpty_iff.1 hrest with rfl
        constructor
        · exact Or.inl
        · rintro (h | ⟨hne, hpre, hcond⟩)
          · exact h
          · rcases p with _ | ⟨s, p'⟩
            · exact absurd rfl hne
            rcases List.cons_prefix_cons.1 hpre with ⟨rfl, hpre'⟩
            rcases List.prefix_nil.1 hpre' with rfl
            rcases hcond rfl with h | h
            · rw [htype] at h
              cases h
            · rw [List.getLastD_cons, List.getLastD_nil] at h
              rw [hmatch] at h
              cases h
      · have hkey : (addNestedEnhancedNode (EnhancedTreeNode.node "" true none acc 0)
            (x :: rest) it 1 options).children =
            sortEnh (buildEnhancedTreeStep nd options acc it) := by
          simp only [buildEnhancedTreeStep, hrel, addNestedEnhancedNode,
            EnhancedTreeNode.withChildren, EnhancedTreeNode.children]
          rw [if_neg hskip, if_neg hskip]
        have h1 : ExAtE (buildEnhancedTreeStep nd options acc it) p ↔
            ExAtE (addNestedEnhancedNode (EnhancedTreeNode.node "" true none acc 0)
              (x :: rest) it 1 options).children p := by
          rw [hkey, exAtE_sortEnh]
        rw [h1, addNestedEnhancedNode_exAt (x :: rest) (by simp) it 1 options _ p]
        rfl

theorem buildEnhancedTreeStep_exDirAt_mono (nd : String) (options : SubTreeOptions)
    (acc : List EnhancedTreeNode) (it : GitHubTreeItem) (p : List String)
    (h : ExDirAtE acc p) : ExDirAtE (buildEnhancedTreeStep nd options acc it) p := by
  cases hrel : relParts nd it.path with
  | none => simpa [buildEnhancedTreeStep, hrel] using h
  | some parts =>
    cases parts with
    | nil => simpa [buildEnhancedTreeStep, hrel] using h
    | cons x rest =>
      by_cases hskip : (rest.isEmpty && (it.type == GitItemType.blob) &&
          !matchesExtFilter x options.fileExtFilter) = true
      · have hres : buildEnhancedTreeStep nd options acc it = acc := by
          simp only [buildEnhancedTreeStep, hrel]
          rw [if_pos hskip]
        rw [hres]
        exact h
      · have hkey : (addNestedEnhancedNode (EnhancedTreeNode.node "" true none acc 0)
            (x :: rest) it 1 options).children =
            sortEnh (buildEnhancedTreeStep nd options acc it) := by
          simp only [buildEnhancedTreeStep, hrel, addNestedEnhancedNode,
            EnhancedTreeNode.withChildren, EnhancedTreeNode.children]
          rw [if_neg hskip, if_neg hskip]
        have := addNestedEnhancedNode_exDirAt_mono (x :: rest) it 1 options
          (EnhancedTreeNode.node "" true none acc 0) p
          (by simpa [EnhancedTreeNode.children] using h)
        rw [hkey, exDirAtE_sortEnh] at this
        exact this

theorem buildEnhancedTreeStep_exDirAt_proper (nd : String) (options : SubTreeOptions)
    (acc : List EnhancedTreeNode) (it : GitHubTreeItem) (p : List String)
    (h : properContrib nd it p) :
    ExDirAtE (buildEnhancedTreeStep nd options acc it) p := by
  unfold properContrib at h
  cases hrel : relParts nd it.path with
  | none => simp [hrel] at h
  | some parts =>
    rw [hrel] at h
    rcases h with ⟨hne, hpre, hproper⟩
    cases parts with
    | nil => exact absurd (List.prefix_nil.1 hpre) hne
    | cons x rest =>
      have hskipfalse : ¬ (rest.isEmpty && (it.type == GitItemType.blob) &&
          !matchesExtFilter x options.fileExtFilter) = true ∨
          (rest.isEmpty && (it.type == GitItemType.blob) &&
            !matchesExtFilter x options.fileExtFilter) = true := by
        tauto
      rcases hskipfalse with hskip | hskip
      · have hkey : (addNestedEnhancedNode (EnhancedTreeNode.node "" true none acc 0)
            (x :: rest) it 1 options).children =
            sortEnh (buildEnhancedTreeStep nd options acc it) := by
          simp only [buildEnhancedTreeStep, hrel, addNestedEnhancedNode,
            EnhancedTreeNode.withChildren, EnhancedTreeNode.children]
          rw [if_neg hskip, if_neg hskip]
        have := addNestedEnhancedNode_exDirAt_proper (x :: rest) it 1 options
          (EnhancedTreeNode.node "" true none acc 0) p hne hpre hproper
        rw [hkey, exDirAtE_sortEnh] at this
        exact this
      · -- the skipped-leaf case has no proper nonempty prefixes: parts = [x]
        simp only [Bool.and_eq_true] at hskip
        rcases List.isEmpty_iff.1 hskip.1.1 with rfl
        rcases p with _ | ⟨s, p'⟩
        · exact absurd rfl hne
        rcases List.cons_prefix_cons.1 hpre with ⟨rfl, hpre'⟩
        rcases List.prefix_nil.1 hpre' with rfl
        exact absurd rfl hproper

theorem foldl_buildEnhancedTreeStep_exAt (nd : String) (options : SubTreeOptions)
    (l : List GitHubTreeItem) :
    ∀ (acc : List EnhancedTreeNode) (p : List String),
      ExAtE (l.foldl (buildEnhancedTreeStep nd options) acc) p ↔
        ExAtE acc p ∨ ∃ it ∈ l, enhContrib nd options it p := by
  induction l with
  | nil => intro acc p; simp
  | cons it l ih =>
    intro acc p
    rw [List.foldl_cons, ih, buildEnhancedTreeStep_exAt]
    constructor
    · rintro ((h | h) | ⟨it', hit', h⟩)
      · exact Or.inl h
      · exact Or.inr ⟨it, List.mem_cons_self it l, h⟩
      · exact Or.inr ⟨it', List.mem_cons_of_mem it hit', h⟩
    · rintro (h | ⟨it', hit', h⟩)
      · exact Or.inl (Or.inl h)
      · rcases List.mem_cons.1 hit' with rfl | hit'
        · exact Or.inl (Or.inr h)
        · exact Or.inr ⟨it', hit', h⟩

theorem foldl_buildEnhancedTreeStep_exDirAt (nd : String) (options : SubTreeOptions)
    (l : List GitHubTreeItem) :
    ∀ (acc : List EnhancedTreeNode) (p : List String),
      (ExDirAtE acc p ∨ ∃ it ∈ l, properContrib nd it p) →
      ExDirAtE (l.foldl (buildEnhancedTreeStep nd options) acc) p := by
  induction l with
  | nil =>
    intro acc p h
    rcases h with h | ⟨it, hit, _⟩
    · exact h
    · simp at hit
  | cons it l ih =>
    intro acc p h
    rw [List.foldl_cons]
    rcases h with h | ⟨it', hit', h⟩
    · exact ih _ p (Or.inl (buildEnhancedTreeStep_exDirAt_mono nd options acc it p h))
    · rcases List.mem_cons.1 hit' with rfl | hit'
      · exact ih _ p (Or.inl (buildEnhancedTreeStep_exDirAt_proper nd options acc it' p h))
      · exact ih _ p (Or.inr ⟨it', hit', h⟩)

/-- Full characterization of the paths present in an enhanced built tree:
exactly the nonempty prefixes of the relative segment lists of the selected
items, except that full paths of filtered-out `blob` items are absent. -/
theorem buildEnhancedTree_exAt (items : List GitHubTreeItem) (dirPath : String)
    (options : SubTreeOptions) (p : List String) :
    ExAtE (buildEnhancedTree items dirPath options).children p ↔
      ∃ it ∈ items, filterPredB (normalizePath dirPath) it = true ∧
        enhContrib (normalizePath dirPath) options it p := by
  unfold buildEnhancedTree
  simp only [EnhancedTreeNode.children]
  rw [exAtE_sortEnh, foldl_buildEnhancedTreeStep_exAt]
  simp only [exAtE_nil_list, false_or, List.mem_filter]
  constructor
  · rintro ⟨it, ⟨hit, hf⟩, h⟩
    exact ⟨it, hit, hf, h⟩
  · rintro ⟨it, hit, hf, h⟩
    exact ⟨it, ⟨hit, hf⟩, h⟩

/-- Every proper nonempty relative prefix of a selected item is present in
the enhanced built tree as a directory, whatever the order of the entry list
and whatever the options. -/
theorem buildEnhancedTree_exDirAt (items : List GitHubTreeItem) (dirPath : String)
    (options : SubTreeOptions) (p : List String)
    (h : ∃ it ∈ items, filterPredB (normalizePath dirPath) it = true ∧
      properContrib (normalizePath dirPath) it p) :
    ExDirAtE (buildEnhancedTree items dirPath options).children p := by
  unfold buildEnhancedTree
  simp only [EnhancedTreeNode.children]
  rw [exDirAtE_sortEnh]
  refine foldl_buildEnhancedTreeStep_exDirAt _ _ _ _ _ (Or.inr ?_)
  rcases h with ⟨it, hit, hf, h⟩
  exact ⟨it, List.mem_filter.2 ⟨hit, hf⟩, h⟩

theorem nodeAtL_name {cs : List TreeNode} {p : List String} {n : TreeNode}
    (h : NodeAtL cs p n) : n.name = p.getLastD "" := by
  induction h with
  | here hmem hname => simpa [List.getLastD_cons, List.getLastD_nil] using hname
  | there hmem hname hrest ih =>
    rename_i c s p' n'
    have hp' : p' ≠ [] := by
      intro hEq
      rw [hEq] at hrest
      exact nodeAtL_nil_path hrest
    rw [ih, getLastD_cons_of_ne_nil hp' "" ""]

theorem nodeAtLE_name {cs : List EnhancedTreeNode} {p : List String} {n : EnhancedTreeNode}
    (h : NodeAtLE cs p n) : n.name = p.getLastD "" := by
  induction h with
  | here hmem hname => simpa [List.getLastD_cons, List.getLastD_nil] using hname
  | there hmem hname hrest ih =>
    rename_i c s p' n'
    have hp' : p' ≠ [] := by
      intro hEq
      rw [hEq] at hrest
      exact nodeAtLE_nil_path hrest
    rw [ih, getLastD_cons_of_ne_nil hp' "" ""]

theorem mem_plainNamesGo :
    ∀ (cs : List TreeNode) (nm : String),
      nm ∈ plainNamesGo cs ↔ ∃ p n, NodeAtL cs p n ∧ n.name = nm := by
  have H : ∀ (k : Nat) (cs : List TreeNode), sizeOf cs ≤ k → ∀ nm,
      (nm ∈ plainNamesGo cs ↔ ∃ p n, NodeAtL cs p n ∧ n.name = nm) := by
    intro k
    induction k with
    | zero =>
      intro cs hk nm
      cases cs with
      | nil =>
        simp only [plainNamesGo]
        constructor
        · intro h
          simp at h
        · rintro ⟨p, n, h, -⟩
          exact absurd ⟨n, h⟩ exAt_nil_list
      | cons c rest => simp at hk
    | succ k ih =>
      intro cs hk nm
      cases cs with
      | nil =>
        simp only [plainNamesGo]
        constructor
        · intro h
          simp at h
        · rintro ⟨p, n, h, -⟩
          exact absurd ⟨n, h⟩ exAt_nil_list
      | cons c rest =>
        cases c with
        | node cnm cd ccs =>
          have hsize1 : sizeOf ccs ≤ k := by
            simp at hk
            omega
          have hsize2 : sizeOf rest ≤ k := by
            simp at hk
            omega
          simp only [plainNamesGo, plainNodeNames, List.mem_append, List.mem_singleton]
          constructor
          · rintro ((h | h) | h)
            · exact ⟨[cnm], TreeNode.node cnm cd ccs,
                NodeAtL.here (List.mem_cons_self _ _) rfl, h.symm⟩
            · have h' := h
              rw [show (if (TreeNode.node cnm cd ccs).children.isEmpty then []
                  else plainNamesGo ccs) =
                  (if ccs.isEmpty then [] else plainNamesGo ccs) from rfl] at h'
              split at h'
              · simp at h'
              · rcases ((ih ccs hsize1 nm).1 h') with ⟨p, n, hat, hn⟩
                exact ⟨cnm :: p, n,
                  NodeAtL.there (List.mem_cons_self _ _) rfl hat, hn⟩
            · rcases (ih rest hsize2 nm).1 h with ⟨p, n, hat, hn⟩
              exact ⟨p, n, nodeAtL_of_mem_iff (fun x hx => List.mem_cons_of_mem _ hx) hat, hn⟩
          · rintro ⟨p, n, hat, hn⟩
            cases hat with
            | here hmem hname =>
              rcases List.mem_cons.1 hmem with rfl | hmem
              · exact Or.inl (Or.inl hn.symm)
              · refine Or.inr ((ih rest hsize2 nm).2 ⟨_, n, NodeAtL.here hmem hname, hn⟩)
            | there hmem hname hrest =>
              rcases List.mem_cons.1 hmem with rfl | hmem
              · refine Or.inl (Or.inr ?_)
                have hccs : ¬ ccs.isEmpty := by
                  intro hEq
                  have hnil : ccs = [] := List.isEmpty_iff.1 hEq
                  subst hnil
                  cases hrest <;> simp_all [TreeNode.children]
                rw [show (if (TreeNode.node cnm cd ccs).children.isEmpty then []
                    else plainNamesGo ccs) =
                    (if ccs.isEmpty then [] else plainNamesGo ccs) from rfl]
                rw [if_neg hccs]
                exact (ih ccs hsize1 nm).2 ⟨_, n, hrest, hn⟩
              · refine Or.inr ((ih rest hsize2 nm).2
                  ⟨_, n, NodeAtL.there hmem hname hrest, hn⟩)
  intro cs nm
  exact H (sizeOf cs) cs (Nat.le_refl _) nm

theorem mem_enhNamesGo_none :
    ∀ (cs : List EnhancedTreeNode) (nm : String),
      nm ∈ enhNamesGo cs none ↔ ∃ p n, NodeAtLE cs p n ∧ n.name = nm := by
  have H : ∀ (k : Nat) (cs : List EnhancedTreeNode), sizeOf cs ≤ k → ∀ nm,
      (nm ∈ enhNamesGo cs none ↔ ∃ p n, NodeAtLE cs p n ∧ n.name = nm) := by
    intro k
    induction k with
    | zero =>
      intro cs hk nm
      cases cs with
      | nil =>
        simp only [enhNamesGo]
        constructor
        · intro h
          simp at h
        · rintro ⟨p, n, h, -⟩
          exact absurd ⟨n, h⟩ exAtE_nil_list
      | cons c rest => simp at hk
    | succ k ih =>
      intro cs hk nm
      cases cs with
      | nil =>
        simp only [enhNamesGo]
        constructor
        · intro h
          simp at h
        · rintro ⟨p, n, h, -⟩
          exact absurd ⟨n, h⟩ exAtE_nil_list
      | cons c rest =>
        cases c with
        | node cnm cd csz ccs cdp =>
          have hsize1 : sizeOf ccs ≤ k := by
            simp at hk
            omega
          have hsize2 : sizeOf rest ≤ k := by
            simp at hk
            omega
          have hguard : depthGT (EnhancedTreeNode.node cnm cd csz ccs cdp).depth none = false :=
            rfl
          have hguard2 : depthLT (EnhancedTreeNode.node cnm cd csz ccs cdp).depth none = true :=
            rfl
          simp only [enhNamesGo, enhNodeNames, hguard, Bool.false_eq_true, if_false,
            hguard2, Bool.and_true, List.mem_append, List.mem_singleton]
          constructor
          · rintro ((h | h) | h)
            · exact ⟨[cnm], EnhancedTreeNode.node cnm cd csz ccs cdp,
                NodeAtLE.here (List.mem_cons_self _ _) rfl, h.symm⟩
            · have h' := h
              rw [show (if !(EnhancedTreeNode.node cnm cd csz ccs cdp).children.isEmpty
                  then enhNamesGo ccs none else []) =
                  (if !ccs.isEmpty then enhNamesGo ccs none else []) from rfl] at h'
              split at h'
              · rcases ((ih ccs hsize1 nm).1 h') with ⟨p, n, hat, hn⟩
                exact ⟨cnm :: p, n,
                  NodeAtLE.there (List.mem_cons_self _ _) rfl hat, hn⟩
              · simp at h'
            · rcases (ih rest hsize2 nm).1 h with ⟨p, n, hat, hn⟩
              exact ⟨p, n, nodeAtLE_of_mem_iff (fun x hx => List.mem_cons_of_mem _ hx) hat, hn⟩
          · rintro ⟨p, n, hat, hn⟩
            cases hat with
            | here hmem hname =>
              rcases List.mem_cons.1 hmem with rfl | hmem
              · exact Or.inl (Or.inl hn.symm)
              · refine Or.inr ((ih rest hsize2 nm).2 ⟨_, n, NodeAtLE.here hmem hname, hn⟩)
            | there hmem hname hrest =>
              rcases List.mem_cons.1 hmem with rfl | hmem
              · refine Or.inl (Or.inr ?_)
                have hccs : ¬ ccs.isEmpty := by
                  intro hEq
                  have hnil : ccs = [] := List.isEmpty_iff.1 hEq
                  subst hnil
                  cases hrest <;> simp_all [EnhancedTreeNode.children]
                rw [show (if !(EnhancedTreeNode.node cnm cd csz ccs cdp).children.isEmpty
                    then enhNamesGo ccs none else []) =
                    (if !ccs.isEmpty then enhNamesGo ccs none else []) from rfl]
                rw [if_pos (by simpa using hccs)]
                exact (ih ccs hsize1 nm).2 ⟨_, n, hrest, hn⟩
              · refine Or.inr ((ih rest hsize2 nm).2
                  ⟨_, n, NodeAtLE.there hmem hname hrest, hn⟩)
  intro cs nm
  exact H (sizeOf cs) cs (Nat.le_refl _) nm

/-- C1 counterexample (claim as stated is false): with the entry order
`[{path:"x", type:file}, {path:"x", type:directory}]`, both builders leave
the node `x` with `isDirectory = false`, although an entry with that exact
path has type directory. The directory-typed duplicate arriving after the
file-typed entry never promotes the existing node, because promotion happens
only on the descendants branch. -/
theorem claim1_directory_wins_cex :
    ((buildTree [⟨"x", GitItemType.blob, none⟩, ⟨"x", GitItemType.tree, none⟩] "").children.map
      (fun n => (n.name, n.isDirectory))) = [("x", false)] ∧
    ((buildEnhancedTree [⟨"x", GitItemType.blob, some 5⟩, ⟨"x", GitItemType.tree, none⟩] ""
      ⟨none, none, none, none⟩).children.map
      (fun n => (n.name, n.isDirectory))) = [("x", false)] := by
  decide

/-- C1 (amended): in both builders, a node implied to be a directory because
some selected entry has it as a proper path prefix (it has descendants) ends
up with `isDirectory = true`, in every entry order; and the flag is never
demoted by processing further entries (existence of a directory node at a
path is preserved by every insertion step). An entry with the exact path and
type directory, however, sets the flag only when it is processed before a
file-typed entry creates the node (see the counterexample). -/
theorem claim1_directory_promotion (items : List GitHubTreeItem) (dirPath : String)
    (options : SubTreeOptions) (it : GitHubTreeItem) (p : List String)
    (hit : it ∈ items) (hsel : filterPredB (normalizePath dirPath) it = true)
    (hcontrib : properContrib (normalizePath dirPath) it p) :
    (ExDirAt (buildTree items dirPath).children p ∧
     ExDirAtE (buildEnhancedTree items dirPath options).children p) ∧
    ((∀ (acc : List TreeNode) (it' : GitHubTreeItem) (q : List String),
        ExDirAt acc q → ExDirAt (buildTreeStep (normalizePath dirPath) acc it') q) ∧
     (∀ (acc : List EnhancedTreeNode) (it' : GitHubTreeItem) (q : List String),
        ExDirAtE acc q →
        ExDirAtE (buildEnhancedTreeStep (normalizePath dirPath) options acc it') q)) :=
  ⟨⟨buildTree_exDirAt items dirPath p ⟨it, hit, hsel, hcontrib⟩,
    buildEnhancedTree_exDirAt items dirPath options p ⟨it, hit, hsel, hcontrib⟩⟩,
   ⟨fun acc it' q h => buildTreeStep_exDirAt_mono _ acc it' q h,
    fun acc it' q h => buildEnhancedTreeStep_exDirAt_mono _ options acc it' q h⟩⟩

/-- Closed witness for the amended C1, instantiated at the entry `a/b.ts`
whose proper prefix `a` must be a directory: both builders indeed mark `a`
as a directory even though no explicit entry for `a` exists. -/
theorem claim1_directory_promotion_witness :
    ExDirAt (buildTree [⟨"a/b.ts", GitItemType.blob, some 1⟩] "").children ["a"] ∧
    ExDirAtE (buildEnhancedTree [⟨"a/b.ts", GitItemType.blob, some 1⟩] ""
      ⟨none, none, none, none⟩).children ["a"] :=
  (claim1_directory_promotion [⟨"a/b.ts", GitItemType.blob, some 1⟩] ""
    ⟨none, none, none, none⟩ ⟨"a/b.ts", GitItemType.blob, some 1⟩ ["a"]
    (List.mem_singleton.2 rfl) (by decide)
    (by
      unfold properContrib
      rw [show relParts (normalizePath "") "a/b.ts" = some ["a", "b.ts"] from by decide]
      exact ⟨by decide, by decide, by decide⟩)).1

/-- C3 counterexample (claim as stated is false): for the single entry
`a/b.md` under the filter `[".ts"]`, the directory `a` has no descendant
file matching the filter, yet it is rendered and counted in the statistics:
the output is `a/` plus a summary counting one directory. -/
theorem claim3_empty_dir_rendered_cex :
    formatSubTree ⟨[⟨"a/b.md", GitItemType.blob, some 10⟩]⟩ ""
      ⟨none, none, none, some [".ts"]⟩ =
      "a/\n\n📊 Summary: 1 directory, 0 files, (filtered: .ts)" := by
  decide

/-- C3 (amended): the extension filter removes exactly the non-matching file
leaves. A path is present in the enhanced tree exactly when some selected
entry contributes it, where an entry contributes every nonempty prefix of
its relative segments, except that a file-typed entry whose name fails the
filter does not contribute its own full path — its ancestor directory
segments are still created, so a directory whose files are all filtered out
remains in the tree (and in the rendering and statistics), and a directory
with at least one qualifying descendant is always retained. -/
theorem claim3_ext_filter_scope (items : List GitHubTreeItem) (dirPath : String)
    (options : SubTreeOptions) (p : List String) :
    ExAtE (buildEnhancedTree items dirPath options).children p ↔
      ∃ it ∈ items, filterPredB (normalizePath dirPath) it = true ∧
        enhContrib (normalizePath dirPath) options it p :=
  buildEnhancedTree_exAt items dirPath options p

/-- C10: for every non-empty entry list and filter path, the plain renderer
and the enhanced renderer invoked with `showStats:false, showSize:false`, no
extension filter and no depth bound emit exactly the same set of entry
names; only the ordering of the directory/file groups differs. -/
theorem claim10_name_agreement (treeResponse : GitHubTreeResponse) (dirPath : String)
    (hne : treeResponse.tree ≠ []) (nm : String) :
    nm ∈ plainRenderedNames treeResponse dirPath ↔
      nm ∈ enhRenderedNames treeResponse dirPath ⟨some false, none, some false, none⟩ := by
  have hcontrib : ∀ it p, plainContrib (normalizePath dirPath) it p ↔
      enhContrib (normalizePath dirPath) ⟨some false, none, some false, none⟩ it p := by
    intro it p
    unfold plainContrib enhContrib
    cases relParts (normalizePath dirPath) it.path with
    | none => exact Iff.rfl
    | some segs =>
      constructor
      · rintro ⟨h1, h2⟩
        exact ⟨h1, h2, fun _ => Or.inr rfl⟩
      · rintro ⟨h1, h2, -⟩
        exact ⟨h1, h2⟩
  have hpaths : ∀ p, ExAt (buildTree treeResponse.tree dirPath).children p ↔
      ExAtE (buildEnhancedTree treeResponse.tree dirPath
        ⟨some false, none, some false, none⟩).children p := by
    intro p
    rw [buildTree_exAt, buildEnhancedTree_exAt]
    constructor
    · rintro ⟨it, hit, hf, h⟩
      exact ⟨it, hit, hf, (hcontrib it p).1 h⟩
    · rintro ⟨it, hit, hf, h⟩
      exact ⟨it, hit, hf, (hcontrib it p).2 h⟩
  have hmemp : nm ∈ plainRenderedNames treeResponse dirPath ↔
      ∃ p, ExAt (buildTree treeResponse.tree dirPath).children p ∧ p.getLastD "" = nm := by
    unfold plainRenderedNames
    rw [if_neg (by simpa [List.isEmpty_iff] using hne)]
    dsimp only
    split
    · next hempty =>
      constructor
      · intro h
        simp at h
      · rintro ⟨p, ⟨n, hat⟩, -⟩
        rw [List.isEmpty_iff.1 hempty] at hat
        exact absurd ⟨n, hat⟩ exAt_nil_list
    · rw [mem_plainNamesGo]
      constructor
      · rintro ⟨p, n, hat, hn⟩
        exact ⟨p, ⟨n, hat⟩, by rw [← nodeAtL_name hat]; exact hn⟩
      · rintro ⟨p, ⟨n, hat⟩, hlast⟩
        exact ⟨p, n, hat, by rw [nodeAtL_name hat]; exact hlast⟩
  have hmeme : nm ∈ enhRenderedNames treeResponse dirPath
        ⟨some false, none, some false, none⟩ ↔
      ∃ p, ExAtE (buildEnhancedTree treeResponse.tree dirPath
        ⟨some false, none, some false, none⟩).children p ∧ p.getLastD "" = nm := by
    unfold enhRenderedNames
    rw [if_neg (by simpa [List.isEmpty_iff] using hne)]
    dsimp only
    split
    · next hempty =>
      constructor
      · intro h
        simp at h
      · rintro ⟨p, ⟨n, hat⟩, -⟩
        rw [List.isEmpty_iff.1 hempty] at hat
        exact absurd ⟨n, hat⟩ exAtE_nil_list
    · rw [mem_enhNamesGo_none]
      constructor
      · rintro ⟨p, n, hat, hn⟩
        exact ⟨p, ⟨n, hat⟩, by rw [← nodeAtLE_name hat]; exact hn⟩
      · rintro ⟨p, ⟨n, hat⟩, hlast⟩
        exact ⟨p, n, hat, by rw [nodeAtLE_name hat]; exact hlast⟩
  rw [hmemp, hmeme]
  constructor
  · rintro ⟨p, h, hlast⟩
    exact ⟨p, (hpaths p).1 h, hlast⟩
  · rintro ⟨p, h, hlast⟩
    exact ⟨p, (hpaths p).2 h, hlast⟩

/-- Closed witness for C10 on the four-entry sample list: the name sets of
the two renderers coincide (shown here for the name `index.ts`, applying the
theorem at that concrete input). -/
theorem claim10_name_agreement_witness :
    "index.ts" ∈ plainRenderedNames ⟨[⟨"src", GitItemType.tree, none⟩,
      ⟨"src/index.ts", GitItemType.blob, some 100⟩,
      ⟨"src/utils.ts", GitItemType.blob, some 200⟩,
      ⟨"README.md", GitItemType.blob, some 50⟩]⟩ "" ↔
    "index.ts" ∈ enhRenderedNames ⟨[⟨"src", GitItemType.tree, none⟩,
      ⟨"src/index.ts", GitItemType.blob, some 100⟩,
      ⟨"src/utils.ts", GitItemType.blob, some 200⟩,
      ⟨"README.md", GitItemType.blob, some 50⟩]⟩ ""
      ⟨some false, none, some false, none⟩ :=
  claim10_name_agreement ⟨[⟨"src", GitItemType.tree, none⟩,
      ⟨"src/index.ts", GitItemType.blob, some 100⟩,
      ⟨"src/utils.ts", GitItemType.blob, some 200⟩,
      ⟨"README.md", GitItemType.blob, some 50⟩]⟩ "" (by decide) "index.ts"

set_option maxRecDepth 100000 in
/-- C2 counterexample (claim as stated is false): on the four-entry sample
with `showSize:true`, the aggregate size of `src` is 100 + 200 = 300 bytes,
so no line carries the claimed annotation `(2 files, 3.0KB)` — the string
does not occur anywhere in the output. -/
theorem claim2_enhanced_sample_cex :
    ¬ ("(2 files, 3.0KB)".data <:+:
        (formatSubTree ⟨[⟨"src", GitItemType.tree, none⟩,
          ⟨"src/index.ts", GitItemType.blob, some 100⟩,
          ⟨"src/utils.ts", GitItemType.blob, some 200⟩,
          ⟨"README.md", GitItemType.blob, some 50⟩]⟩ ""
          ⟨some true, none, none, none⟩).data) := by
  decide

/-- C2 (amended): on the four-entry sample, `renderEnhanced` with the empty
filter path and `showSize:true` produces the `src/` line annotated
`(2 files, 300B)` (300 bytes, not 3.0KB), the line `├── index.ts (100B)`,
the line `README.md (50B)`, and — `showStats` defaulting to true — the
trailing summary. -/
theorem claim2_enhanced_sample_render :
    formatSubTree ⟨[⟨"src", GitItemType.tree, none⟩,
        ⟨"src/index.ts", GitItemType.blob, some 100⟩,
        ⟨"src/utils.ts", GitItemType.blob, some 200⟩,
        ⟨"README.md", GitItemType.blob, some 50⟩]⟩ ""
        ⟨some true, none, none, none⟩ =
      "src/ (2 files, 300B)\n├── index.ts (100B)\n└── utils.ts (200B)\nREADME.md (50B)\n\n📊 Summary: 1 directory, 3 files, 350B total" := by
  decide

/-- C9 counterexample (claim as stated is false): a file entry that carries
no size is rendered without any size suffix even when `showSize` is true —
the whole output is the bare name. -/
theorem claim9_sizeless_file_cex :
    formatSubTree ⟨[⟨"a.ts", GitItemType.blob, none⟩]⟩ ""
      ⟨some true, none, some false, none⟩ = "a.ts" := by
  decide

/-- C9 (amended): with `showSize` true, a file line whose node carries a size
`sz` is suffixed `" (" ++ formatSize sz ++ ")"`; a file without a recorded
size receives no suffix; a directory whose depth-bounded subtree contains at
least one file is suffixed with the file count (with singular/plural) and
the aggregate size; a directory with zero qualifying descendant files
receives no suffix. -/
theorem claim9_show_size_annotations (c : EnhancedTreeNode) (options : SubTreeOptions)
    (md : Option Nat) (hs : options.showSize = some true) :
    (c.isDirectory = false → c.size = none → displayNameOf c options md = c.name) ∧
    (c.isDirectory = false → ∀ sz, c.size = some sz →
      displayNameOf c options md = c.name ++ " (" ++ formatSize sz ++ ")") ∧
    (c.isDirectory = true → countDirFiles c md = 0 →
      displayNameOf c options md = c.name ++ "/") ∧
    (c.isDirectory = true → 0 < countDirFiles c md →
      displayNameOf c options md =
        c.name ++ "/" ++ " (" ++ toString (countDirFiles c md) ++ " " ++
          (if countDirFiles c md = 1 then "file" else "files") ++ ", " ++
          formatSize (calculateDirSize c md) ++ ")") := by
  refine ⟨?_, ?_, ?_, ?_⟩
  · intro hdir hsz
    simp [displayNameOf, hs, hdir, hsz]
  · intro hdir sz hsz
    simp [displayNameOf, hs, hdir, hsz, String.append_assoc]
  · intro hdir hcount
    simp [displayNameOf, hs, hdir, hcount]
  · intro hdir hcount
    have : ¬ countDirFiles c md = 0 := Nat.pos_iff_ne_zero.1 hcount
    simp [displayNameOf, hs, hdir, if_neg this, Nat.pos_iff_ne_zero.1 hcount,
      String.append_assoc]

/-- Closed witness for the amended C9: a sized file, a sizeless file, an
empty directory and a directory with one 3-byte file, each annotated as the
theorem states. -/
theorem claim9_show_size_annotations_witness :
    displayNameOf (EnhancedTreeNode.node "f.ts" false (some 3) [] 1)
      ⟨some true, none, none, none⟩ none = "f.ts" ++ " (" ++ formatSize 3 ++ ")" ∧
    displayNameOf (EnhancedTreeNode.node "g.ts" false none [] 1)
      ⟨some true, none, none, none⟩ none = "g.ts" ∧
    displayNameOf (EnhancedTreeNode.node "d" true none [] 1)
      ⟨some true, none, none, none⟩ none = "d" ++ "/" :=
  ⟨(claim9_show_size_annotations (EnhancedTreeNode.node "f.ts" false (some 3) [] 1)
      ⟨some true, none, none, none⟩ none rfl).2.1 rfl 3 rfl,
   (claim9_show_size_annotations (EnhancedTreeNode.node "g.ts" false none [] 1)
      ⟨some true, none, none, none⟩ none rfl).1 rfl rfl,
   (claim9_show_size_annotations (EnhancedTreeNode.node "d" true none [] 1)
      ⟨some true, none, none, none⟩ none rfl).2.2.1 rfl (by decide)⟩

theorem formatStats_eq_summarySpec (stats : TreeStats) :
    formatStats stats = summarySpec stats := by
  unfold formatStats summarySpec
  have h1 : ∀ x : String, (" total, " : String) ++ ("(depth limited to " ++ x) =
      " total" ++ (", (depth limited to " ++ x) := by
    intro x
    rw [← String.append_assoc, ← String.append_assoc]
    rfl
  have h2 : ∀ x : String, (" total, " : String) ++ ("(filtered: " ++ x) =
      " total" ++ (", (filtered: " ++ x) := by
    intro x
    rw [← String.append_assoc, ← String.append_assoc]
    rfl
  have h3 : ∀ x : String, (", " : String) ++ ("(depth limited to " ++ x) =
      ", (depth limited to " ++ x := by
    intro x
    rw [← String.append_assoc]
    rfl
  have h4 : ∀ x : String, (", " : String) ++ ("(filtered: " ++ x) =
      ", (filtered: " ++ x := by
    intro x
    rw [← String.append_assoc]
    rfl
  have h5 : ∀ x : String, ("), " : String) ++ ("(depth limited to " ++ x) =
      ")" ++ (", (depth limited to " ++ x) := by
    intro x
    rw [← String.append_assoc, ← String.append_assoc]
    rfl
  by_cases hsz : stats.totalSize > 0 <;>
    cases hfe : stats.filteredExtensions with
  | none =>
    cases hdl : stats.depthLimited <;>
      simp [hsz, joinCommaSep, String.append_assoc, h1, h2, h3, h4, h5]
  | some exts =>
    by_cases hexts : exts.isEmpty <;>
      cases hdl : stats.depthLimited <;>
        simp [hsz, hexts, joinCommaSep, String.append_assoc, h1, h2, h3, h4, h5]

/-- C7: whenever the built tree is non-empty and `showStats` is not
explicitly false, the enhanced renderer appends after the tree body a blank
line and one summary line of exactly the spec's form (`summarySpec`):
counts with singular/plural by the count being 1, the `", … total"` part
exactly when the total size is positive, the `", (filtered: …)"` part
exactly when a non-empty extension filter was supplied, and the
`", (depth limited to N)"` part exactly when a depth bound was supplied;
with `showStats` explicitly false, nothing is appended. -/
theorem claim7_summary_format (treeResponse : GitHubTreeResponse) (dirPath : String)
    (options : SubTreeOptions)
    (hne : (buildEnhancedTree treeResponse.tree dirPath options).children.isEmpty = false) :
    (options.showStats ≠ some false →
      formatSubTree treeResponse dirPath options =
        joinNL (formatSubTreeRootLines
            (buildEnhancedTree treeResponse.tree dirPath options).children
            options options.maxDepth) ++ "\n\n" ++
          summarySpec (calculateStats (buildEnhancedTree treeResponse.tree dirPath options)
            options)) ∧
    (options.showStats = some false →
      formatSubTree treeResponse dirPath options =
        joinNL (formatSubTreeRootLines
            (buildEnhancedTree treeResponse.tree dirPath options).children
            options options.maxDepth)) ∧
    ((calculateStats (buildEnhancedTree treeResponse.tree dirPath options)
        options).filteredExtensions =
      match options.fileExtFilter with
      | some exts => if exts.isEmpty then none else some exts
      | none => none) ∧
    ((calculateStats (buildEnhancedTree treeResponse.tree dirPath options)
        options).depthLimited = options.maxDepth) := by
  have hitems : ¬ treeResponse.tree.isEmpty = true := by
    intro hEq
    rcases List.isEmpty_iff.1 hEq with hnil
    rw [hnil] at hne
    have : (buildEnhancedTree [] dirPath options).children = [] := rfl
    rw [this] at hne
    simp at hne
  have hbody : formatSubTree treeResponse dirPath options =
      (if options.showStats ≠ some false then
        joinNL (formatSubTreeRootLines
            (buildEnhancedTree treeResponse.tree dirPath options).children
            options options.maxDepth) ++ "\n\n" ++
          formatStats (calculateStats (buildEnhancedTree treeResponse.tree dirPath options)
            options)
       else
        joinNL (formatSubTreeRootLines
            (buildEnhancedTree treeResponse.tree dirPath options).children
            options options.maxDepth)) := by
    unfold formatSubTree
    rw [if_neg hitems]
    dsimp only
    rw [if_neg (by rw [hne]; simp)]
  refine ⟨?_, ?_, rfl, rfl⟩
  · intro hss
    rw [hbody, if_pos hss, formatStats_eq_summarySpec]
  · intro hss
    rw [hbody, if_neg (by simp [hss])]

/-- Closed witness for C7 on a two-entry list with a depth bound and a
filter supplied, in both `showStats` modes. -/
theorem claim7_summary_format_witness :
    (formatSubTree ⟨[⟨"a", GitItemType.tree, none⟩, ⟨"a/b.ts", GitItemType.blob, some 7⟩]⟩ ""
        ⟨none, some 2, none, some [".ts"]⟩ =
      joinNL (formatSubTreeRootLines
          (buildEnhancedTree [⟨"a", GitItemType.tree, none⟩, ⟨"a/b.ts", GitItemType.blob, some 7⟩]
            "" ⟨none, some 2, none, some [".ts"]⟩).children
          ⟨none, some 2, none, some [".ts"]⟩ (some 2)) ++ "\n\n" ++
        summarySpec (calculateStats
          (buildEnhancedTree [⟨"a", GitItemType.tree, none⟩, ⟨"a/b.ts", GitItemType.blob, some 7⟩]
            "" ⟨none, some 2, none, some [".ts"]⟩) ⟨none, some 2, none, some [".ts"]⟩)) ∧
    (formatSubTree ⟨[⟨"a", GitItemType.tree, none⟩, ⟨"a/b.ts", GitItemType.blob, some 7⟩]⟩ ""
        ⟨none, some 2, some false, some [".ts"]⟩ =
      joinNL (formatSubTreeRootLines
          (buildEnhancedTree [⟨"a", GitItemType.tree, none⟩, ⟨"a/b.ts", GitItemType.blob, some 7⟩]
            "" ⟨none, some 2, some false, some [".ts"]⟩).children
          ⟨none, some 2, some false, some [".ts"]⟩ (some 2))) :=
  ⟨(claim7_summary_format ⟨[⟨"a", GitItemType.tree, none⟩, ⟨"a/b.ts", GitItemType.blob, some 7⟩]⟩
      "" ⟨none, some 2, none, some [".ts"]⟩ (by decide)).1 (by simp),
   ((claim7_summary_format ⟨[⟨"a", GitItemType.tree, none⟩, ⟨"a/b.ts", GitItemType.blob, some 7⟩]⟩
      "" ⟨none, some 2, some false, some [".ts"]⟩ (by decide)).2.1 rfl)⟩

theorem DC.depth_eq {n : EnhancedTreeNode} {k : Nat} (h : DC n k) : n.depth = k := by
  cases h with
  | mk nm dir sz cs dp k hdp hcs => exact hdp

theorem DC.children_mem {n : EnhancedTreeNode} {k : Nat} (h : DC n k) :
    ∀ c ∈ n.children, DC c (k + 1) := by
  cases h with
  | mk nm dir sz cs dp k hdp hcs => exact hcs

theorem DC.setDir_pres {n : EnhancedTreeNode} {k : Nat} (h : DC n k) (b : Bool) :
    DC (n.setDir b) k := by
  cases h with
  | mk nm dir sz cs dp k hdp hcs => exact DC.mk nm b sz cs dp k hdp hcs

@[simp] theorem truncNode_name (d : Nat) (c : EnhancedTreeNode) :
    (truncNode d c).name = c.name := by
  cases c
  rfl

@[simp] theorem truncNode_isDirectory (d : Nat) (c : EnhancedTreeNode) :
    (truncNode d c).isDirectory = c.isDirectory := by
  cases c
  rfl

@[simp] theorem truncNode_size (d : Nat) (c : EnhancedTreeNode) :
    (truncNode d c).size = c.size := by
  cases c
  rfl

@[simp] theorem truncNode_depth (d : Nat) (c : EnhancedTreeNode) :
    (truncNode d c).depth = c.depth := by
  cases c
  rfl

@[simp] theorem truncNode_children (d : Nat) (c : EnhancedTreeNode) :
    (truncNode d c).children = truncE d c.children := by
  cases c
  rfl

theorem truncE_eq_nil {d : Nat} : ∀ {cs : List EnhancedTreeNode},
    (∀ c ∈ cs, c.depth > d) → truncE d cs = [] := by
  intro cs
  induction cs with
  | nil => intro _; rfl
  | cons c rest ih =>
    intro h
    show (if c.depth > d then [] else [truncNode d c]) ++ truncE d rest = []
    rw [if_pos (h c (List.mem_cons_self _ _)), List.nil_append]
    exact ih fun c' hc' => h c' (List.mem_cons_of_mem _ hc')

theorem truncE_eq_map {d : Nat} : ∀ {cs : List EnhancedTreeNode},
    (∀ c ∈ cs, ¬ c.depth > d) → truncE d cs = cs.map (truncNode d) := by
  intro cs
  induction cs with
  | nil => intro _; rfl
  | cons c rest ih =>
    intro h
    show (if c.depth > d then [] else [truncNode d c]) ++ truncE d rest = _
    rw [if_neg (h c (List.mem_cons_self _ _)), List.map_cons, List.singleton_append]
    rw [ih fun c' hc' => h c' (List.mem_cons_of_mem _ hc')]

theorem dirSizeGo_all_skipped {md : Option Nat} : ∀ {cs : List EnhancedTreeNode},
    (∀ c ∈ cs, depthGT c.depth md = true) → dirSizeGo cs md = 0 := by
  intro cs
  induction cs with
  | nil => intro _; rfl
  | cons c rest ih =>
    intro h
    show (if depthGT c.depth md then _ else _) + dirSizeGo rest md = 0
    rw [if_pos (h c (List.mem_cons_self _ _)), ih fun c' hc' => h c' (List.mem_cons_of_mem _ hc')]

theorem countFilesGo_all_skipped {md : Option Nat} : ∀ {cs : List EnhancedTreeNode},
    (∀ c ∈ cs, depthGT c.depth md = true) → countFilesGo cs md = 0 := by
  intro cs
  induction cs with
  | nil => intro _; rfl
  | cons c rest ih =>
    intro h
    show (if depthGT c.depth md then _ else _) + countFilesGo rest md = 0
    rw [if_pos (h c (List.mem_cons_self _ _)), ih fun c' hc' => h c' (List.mem_cons_of_mem _ hc')]

theorem dirSizeGo_trunc (d : Nat) :
    ∀ (k : Nat) (cs : List EnhancedTreeNode), (∀ c ∈ cs, DC c k) →
      dirSizeGo (truncE d cs) (some d) = dirSizeGo cs (some d) := by
  have H : ∀ (b : Nat) (k : Nat) (cs : List EnhancedTreeNode), sizeOf cs ≤ b →
      (∀ c ∈ cs, DC c k) →
      dirSizeGo (truncE d cs) (some d) = dirSizeGo cs (some d) := by
    intro b
    induction b with
    | zero =>
      intro k cs hb hdc
      cases cs with
      | nil => rfl
      | cons c rest => simp at hb
    | succ b ih =>
      intro k cs hb hdc
      cases cs with
      | nil => rfl
      | cons c rest =>
        have hdcc := hdc c (List.mem_cons_self _ _)
        have hdepth : c.depth = k := hdcc.depth_eq
        have hrest : ∀ c' ∈ rest, DC c' k := fun c' hc' => hdc c' (List.mem_cons_of_mem _ hc')
        cases c with
        | node nm dir sz ccs dp =>
          have hb1 : sizeOf ccs ≤ b := by
            simp at hb
            omega
          have hb2 : sizeOf rest ≤ b := by
            simp at hb
            omega
          by_cases hkd : dp > d
          · show dirSizeGo ((if (EnhancedTreeNode.node nm dir sz ccs dp).depth > d
                then [] else [truncNode d (EnhancedTreeNode.node nm dir sz ccs dp)]) ++
                truncE d rest) (some d) = _
            rw [if_pos (by simpa [EnhancedTreeNode.depth] using hkd), List.nil_append]
            show dirSizeGo (truncE d rest) (some d) =
              (if depthGT (EnhancedTreeNode.node nm dir sz ccs dp).depth (some d)
                then 0 else _) + dirSizeGo rest (some d)
            rw [if_pos (by simpa [depthGT, EnhancedTreeNode.depth] using hkd),
              ih k rest hb2 hrest, Nat.zero_add]
          · show dirSizeGo ((if (EnhancedTreeNode.node nm dir sz ccs dp).depth > d
                then [] else [truncNode d (EnhancedTreeNode.node nm dir sz ccs dp)]) ++
                truncE d rest) (some d) = _
            rw [if_neg (by simpa [EnhancedTreeNode.depth] using hkd), List.singleton_append]
            show (if depthGT dp (some d) then 0
                else if dir = true then dirSizeGo (truncE d ccs) (some d)
                else sz.getD 0) + dirSizeGo (truncE d rest) (some d) = _
            have hskip : depthGT dp (some d) = false := by
              simp [depthGT]
              omega
            rw [hskip]
            show (if dir = true then dirSizeGo (truncE d ccs) (some d) else sz.getD 0) +
                dirSizeGo (truncE d rest) (some d) =
              (if depthGT dp (some d) then 0
                else if dir = true then dirSizeGo ccs (some d) else sz.getD 0) +
                dirSizeGo rest (some d)
            rw [hskip]
            have hccs : ∀ c' ∈ ccs, DC c' (k + 1) := by
              intro c' hc'
              exact hdcc.children_mem c' hc'
            rw [ih (k + 1) ccs hb1 hccs, ih k rest hb2 hrest]
            simp
  intro k cs hdc
  exact H (sizeOf cs) k cs (Nat.le_refl _) hdc

theorem countFilesGo_trunc (d : Nat) :
    ∀ (k : Nat) (cs : List EnhancedTreeNode), (∀ c ∈ cs, DC c k) →
      countFilesGo (truncE d cs) (some d) = countFilesGo cs (some d) := by
  have H : ∀ (b : Nat) (k : Nat) (cs : List EnhancedTreeNode), sizeOf cs ≤ b →
      (∀ c ∈ cs, DC c k) →
      countFilesGo (truncE d cs) (some d) = countFilesGo cs (some d) := by
    intro b
    induction b with
    | zero =>
      intro k cs hb hdc
      cases cs with
      | nil => rfl
      | cons c rest => simp at hb
    | succ b ih =>
      intro k cs hb hdc
      cases cs with
      | nil => rfl
      | cons c rest =>
        have hdcc := hdc c (List.mem_cons_self _ _)
        have hrest : ∀ c' ∈ rest, DC c' k := fun c' hc' => hdc c' (List.mem_cons_of_mem _ hc')
        cases c with
        | node nm dir sz ccs dp =>
          have hb1 : sizeOf ccs ≤ b := by
            simp at hb
            omega
          have hb2 : sizeOf rest ≤ b := by
            simp at hb
            omega
          by_cases hkd : dp > d
          · show countFilesGo ((if (EnhancedTreeNode.node nm dir sz ccs dp).depth > d
                then [] else [truncNode d (EnhancedTreeNode.node nm dir sz ccs dp)]) ++
                truncE d rest) (some d) = _
            rw [if_pos (by simpa [EnhancedTreeNode.depth] using hkd), List.nil_append]
            show countFilesGo (truncE d rest) (some d) =
              (if depthGT (EnhancedTreeNode.node nm dir sz ccs dp).depth (some d)
                then 0 else _) + countFilesGo rest (some d)
            rw [if_pos (by simpa [depthGT, EnhancedTreeNode.depth] using hkd),
              ih k rest hb2 hrest, Nat.zero_add]
          · show countFilesGo ((if (EnhancedTreeNode.node nm dir sz ccs dp).depth > d
                then [] else [truncNode d (EnhancedTreeNode.node nm dir sz ccs dp)]) ++
                truncE d rest) (some d) = _
            rw [if_neg (by simpa [EnhancedTreeNode.depth] using hkd), List.singleton_append]
            show (if depthGT dp (some d) then 0
                else if dir = true then countFilesGo (truncE d ccs) (some d)
                else 1) + countFilesGo (truncE d rest) (some d) = _
            have hskip : depthGT dp (some d) = false := by
              simp [depthGT]
              omega
            rw [hskip]
            show (if dir = true then countFilesGo (truncE d ccs) (some d) else 1) +
                countFilesGo (truncE d rest) (some d) =
              (if depthGT dp (some d) then 0
                else if dir = true then countFilesGo ccs (some d) else 1) +
                countFilesGo rest (some d)
            rw [hskip]
            have hccs : ∀ c' ∈ ccs, DC c' (k + 1) := by
              intro c' hc'
              exact hdcc.children_mem c' hc'
            rw [ih (k + 1) ccs hb1 hccs, ih k rest hb2 hrest]
            simp
  intro k cs hdc
  exact H (sizeOf cs) k cs (Nat.le_refl _) hdc

theorem displayNameOf_trunc (d : Nat) {c : EnhancedTreeNode} {k : Nat} (hdc : DC c k)
    (options : SubTreeOptions) :
    displayNameOf (truncNode d c) options (some d) = displayNameOf c options (some d) := by
  have h1 : calculateDirSize (truncNode d c) (some d) = calculateDirSize c (some d) := by
    cases c with
    | node nm dir sz ccs dp =>
      show dirSizeGo (truncE d ccs) (some d) = dirSizeGo ccs (some d)
      exact dirSizeGo_trunc d (k + 1) ccs hdc.children_mem
  have h2 : countDirFiles (truncNode d c) (some d) = countDirFiles c (some d) := by
    cases c with
    | node nm dir sz ccs dp =>
      show countFilesGo (truncE d ccs) (some d) = countFilesGo ccs (some d)
      exact countFilesGo_trunc d (k + 1) ccs hdc.children_mem
  unfold displayNameOf
  rw [h1, h2, truncNode_name, truncNode_isDirectory, truncNode_size]

theorem calcStatsGo_trunc (d : Nat) :
    ∀ (k : Nat) (cs : List EnhancedTreeNode), (∀ c ∈ cs, DC c k) →
      ∀ (acc : Nat × Nat × Nat),
        calcStatsGo (truncE d cs) (some d) acc = calcStatsGo cs (some d) acc := by
  have H : ∀ (b : Nat) (k : Nat) (cs : List EnhancedTreeNode), sizeOf cs ≤ b →
      (∀ c ∈ cs, DC c k) → ∀ (acc : Nat × Nat × Nat),
      calcStatsGo (truncE d cs) (some d) acc = calcStatsGo cs (some d) acc := by
    intro b
    induction b with
    | zero =>
      intro k cs hb hdc acc
      cases cs with
      | nil => rfl
      | cons c rest => simp at hb
    | succ b ih =>
      intro k cs hb hdc acc
      cases cs with
      | nil => rfl
      | cons c rest =>
        have hdcc := hdc c (List.mem_cons_self _ _)
        have hrest : ∀ c' ∈ rest, DC c' k := fun c' hc' => hdc c' (List.mem_cons_of_mem _ hc')
        cases c with
        | node nm dir sz ccs dp =>
          have hdp : dp = k := hdcc.depth_eq
          have hb1 : sizeOf ccs ≤ b := by
            simp at hb
            omega
          have hb2 : sizeOf rest ≤ b := by
            simp at hb
            omega
          by_cases hkd : dp > d
          · show calcStatsGo ((if (EnhancedTreeNode.node nm dir sz ccs dp).depth > d
                then [] else [truncNode d (EnhancedTreeNode.node nm dir sz ccs dp)]) ++
                truncE d rest) (some d) acc = _
            rw [if_pos (by simpa [EnhancedTreeNode.depth] using hkd), List.nil_append]
            show calcStatsGo (truncE d rest) (some d) acc =
              calcStatsGo rest (some d)
                (if depthGT (EnhancedTreeNode.node nm dir sz ccs dp).depth (some d) then acc
                 else _)
            rw [if_pos (by simpa [depthGT, EnhancedTreeNode.depth] using hkd),
              ih k rest hb2 hrest]
          · show calcStatsGo ((if (EnhancedTreeNode.node nm dir sz ccs dp).depth > d
                then [] else [truncNode d (EnhancedTreeNode.node nm dir sz ccs dp)]) ++
                truncE d rest) (some d) acc = _
            rw [if_neg (by simpa [EnhancedTreeNode.depth] using hkd), List.singleton_append]
            have hskip : depthGT dp (some d) = false := by
              simp [depthGT]
              omega
            show calcStatsGo (truncE d rest) (some d)
                (if depthGT dp (some d) then acc
                 else if dir = true then calcStatsGo (truncE d ccs) (some d)
                    (acc.1, acc.2.1 + 1, acc.2.2)
                 else (acc.1 + 1, acc.2.1, acc.2.2 + sz.getD 0)) =
              calcStatsGo rest (some d)
                (if depthGT dp (some d) then acc
                 else if dir = true then calcStatsGo ccs (some d) (acc.1, acc.2.1 + 1, acc.2.2)
                 else (acc.1 + 1, acc.2.1, acc.2.2 + sz.getD 0))
            rw [hskip]
            have hccs : ∀ c' ∈ ccs, DC c' (k + 1) := fun c' hc' => hdcc.children_mem c' hc'
            rw [ih (k + 1) ccs hb1 hccs, ih k rest hb2 hrest]
  intro k cs hdc acc
  exact H (sizeOf cs) k cs (Nat.le_refl _) hdc acc

theorem formatEnhGo_cons (c : EnhancedTreeNode) (rest : List EnhancedTreeNode)
    (pfx : String) (options : SubTreeOptions) (md : Option Nat) :
    formatEnhGo (c :: rest) pfx options md =
      if depthGT c.depth md then formatEnhGo rest pfx options md
      else
        ([pfx ++ (if rest.isEmpty then "└── " else "├── ") ++ displayNameOf c options md] ++
          (if !c.children.isEmpty && depthLT c.depth md then
            (let cf := formatEnhancedNode c
                (pfx ++ (if rest.isEmpty then "    " else "│   ")) options md
             if cf = "" then [] else [cf])
           else [])) ++
        formatEnhGo rest pfx options md := rfl

theorem formatEnhancedNode_def (nm : String) (dir : Bool) (sz : Option Nat)
    (ccs : List EnhancedTreeNode) (dp : Nat) (pfx : String) (options : SubTreeOptions)
    (md : Option Nat) :
    formatEnhancedNode (EnhancedTreeNode.node nm dir sz ccs dp) pfx options md =
      joinNL (formatEnhGo ccs pfx options md) := rfl

theorem formatSubTreeRootLines_cons (c : EnhancedTreeNode) (rest : List EnhancedTreeNode)
    (options : SubTreeOptions) (md : Option Nat) :
    formatSubTreeRootLines (c :: rest) options md =
      (if !c.children.isEmpty && depthLT c.depth md then
        [displayNameOf c options md] ++
          (let cf := formatEnhancedNode c "" options md
           if cf = "" then [] else [cf])
       else [displayNameOf c options md]) ++
      formatSubTreeRootLines rest options md := rfl

theorem formatEnhGo_trunc (d : Nat) :
    ∀ (k : Nat) (cs : List EnhancedTreeNode), (∀ c ∈ cs, DC c k) →
      ∀ (pfx : String) (options : SubTreeOptions),
        formatEnhGo (truncE d cs) pfx options (some d) =
          formatEnhGo cs pfx options (some d) := by
  have H : ∀ (b : Nat) (k : Nat) (cs : List EnhancedTreeNode), sizeOf cs ≤ b →
      (∀ c ∈ cs, DC c k) → ∀ (pfx : String) (options : SubTreeOptions),
      formatEnhGo (truncE d cs) pfx options (some d) =
        formatEnhGo cs pfx options (some d) := by
    intro b
    induction b with
    | zero =>
      intro k cs hb hdc pfx options
      cases cs with
      | nil => rfl
      | cons c rest => simp at hb
    | succ b ih =>
      intro k cs hb hdc pfx options
      cases cs with
      | nil => rfl
      | cons c rest =>
        have hdcc := hdc c (List.mem_cons_self _ _)
        have hdp : c.depth = k := hdcc.depth_eq
        have hrest : ∀ c' ∈ rest, DC c' k := fun c' hc' => hdc c' (List.mem_cons_of_mem _ hc')
        cases c with
        | node nm dir sz ccs dp =>
          have hb1 : sizeOf ccs ≤ b := by
            simp at hb
            omega
          have hb2 : sizeOf rest ≤ b := by
            simp at hb
            omega
          simp only [EnhancedTreeNode.depth] at hdp
          by_cases hkd : dp > d
          · show formatEnhGo ((if (EnhancedTreeNode.node nm dir sz ccs dp).depth > d
                then [] else [truncNode d (EnhancedTreeNode.node nm dir sz ccs dp)]) ++
                truncE d rest) pfx options (some d) = _
            rw [if_pos (by simpa [EnhancedTreeNode.depth] using hkd), List.nil_append,
              formatEnhGo_cons,
              if_pos (by simp [depthGT, EnhancedTreeNode.depth]; omega),
              ih k rest hb2 hrest]
          · have hnotGT : depthGT (EnhancedTreeNode.node nm dir sz ccs dp).depth (some d)
                = false := by
              simp [depthGT, EnhancedTreeNode.depth]
              omega
            have hrestmap : truncE d rest = rest.map (truncNode d) :=
              truncE_eq_map (fun c' hc' => by rw [(hrest c' hc').depth_eq, ← hdp]; exact hkd)
            have hle : (truncE d rest).isEmpty = rest.isEmpty := by
              rw [hrestmap]
              cases rest <;> rfl
            have hdisp := displayNameOf_trunc d hdcc options
            show formatEnhGo ((if (EnhancedTreeNode.node nm dir sz ccs dp).depth > d
                then [] else [truncNode d (EnhancedTreeNode.node nm dir sz ccs dp)]) ++
                truncE d rest) pfx options (some d) = _
            rw [if_neg (by simpa [EnhancedTreeNode.depth] using hkd), List.singleton_append,
              formatEnhGo_cons, formatEnhGo_cons]
            rw [show (truncNode d (EnhancedTreeNode.node nm dir sz ccs dp)).depth = dp from rfl]
            rw [show (EnhancedTreeNode.node nm dir sz ccs dp).depth = dp from rfl] at hnotGT ⊢
            rw [hnotGT]
            simp only [Bool.false_eq_true, if_false]
            rw [hle, hdisp, ih k rest hb2 hrest]
            by_cases hlt : dp < d
            · have hltb : depthLT dp (some d) = true := by
                simp [depthLT]
                omega
              have hccsmap : truncE d ccs = ccs.map (truncNode d) :=
                truncE_eq_map (fun c' hc' => by
                  rw [(hdcc.children_mem c' hc').depth_eq]
                  omega)
              have hcce : (truncE d ccs).isEmpty = ccs.isEmpty := by
                rw [hccsmap]
                cases ccs <;> rfl
              rw [show (truncNode d (EnhancedTreeNode.node nm dir sz ccs dp)).children =
                truncE d ccs from rfl]
              rw [show (EnhancedTreeNode.node nm dir sz ccs dp).children = ccs from rfl]
              rw [hcce]
              have hcf : formatEnhancedNode (truncNode d (EnhancedTreeNode.node nm dir sz ccs dp))
                  (pfx ++ (if rest.isEmpty then "    " else "│   ")) options (some d) =
                  formatEnhancedNode (EnhancedTreeNode.node nm dir sz ccs dp)
                    (pfx ++ (if rest.isEmpty then "    " else "│   ")) options (some d) := by
                rw [show truncNode d (EnhancedTreeNode.node nm dir sz ccs dp) =
                  EnhancedTreeNode.node nm dir sz (truncE d ccs) dp from rfl]
                rw [formatEnhancedNode_def, formatEnhancedNode_def,
                  ih (k + 1) ccs hb1 hdcc.children_mem]
              rw [hcf]
            · have hltb : depthLT dp (some d) = false := by
                simp [depthLT]
                omega
              rw [hltb]
              simp only [Bool.and_false, Bool.false_eq_true, if_false]
  intro k cs hdc pfx options
  exact H (sizeOf cs) k cs (Nat.le_refl _) hdc pfx options

theorem formatSubTreeRootLines_trunc (d : Nat) (hpos : 0 < d) :
    ∀ (cs : List EnhancedTreeNode), (∀ c ∈ cs, DC c 1) →
      ∀ (options : SubTreeOptions),
        formatSubTreeRootLines (truncE d cs) options (some d) =
          formatSubTreeRootLines cs options (some d) := by
  intro cs
  induction cs with
  | nil => intro _ _; rfl
  | cons c rest ih =>
    intro hdc options
    have hdcc := hdc c (List.mem_cons_self _ _)
    have hdp : c.depth = 1 := hdcc.depth_eq
    have hrest : ∀ c' ∈ rest, DC c' 1 := fun c' hc' => hdc c' (List.mem_cons_of_mem _ hc')
    cases c with
    | node nm dir sz ccs dp =>
      simp only [EnhancedTreeNode.depth] at hdp
      subst hdp
      show formatSubTreeRootLines ((if (EnhancedTreeNode.node nm dir sz ccs 1).depth > d
          then [] else [truncNode d (EnhancedTreeNode.node nm dir sz ccs 1)]) ++
          truncE d rest) options (some d) = _
      rw [if_neg (by simp [EnhancedTreeNode.depth]; omega), List.singleton_append,
        formatSubTreeRootLines_cons, formatSubTreeRootLines_cons]
      have hdisp := displayNameOf_trunc d hdcc options
      rw [hdisp, ih hrest options]
      rw [show (truncNode d (EnhancedTreeNode.node nm dir sz ccs 1)).children =
        truncE d ccs from rfl]
      rw [show (truncNode d (EnhancedTreeNode.node nm dir sz ccs 1)).depth = 1 from rfl]
      rw [show (EnhancedTreeNode.node nm dir sz ccs 1).children = ccs from rfl]
      rw [show (EnhancedTreeNode.node nm dir sz ccs 1).depth = 1 from rfl]
      by_cases hlt : 1 < d
      · have hccsmap : truncE d ccs = ccs.map (truncNode d) :=
          truncE_eq_map (fun c' hc' => by
            rw [(hdcc.children_mem c' hc').depth_eq]
            omega)
        have hcce : (truncE d ccs).isEmpty = ccs.isEmpty := by
          rw [hccsmap]
          cases ccs <;> rfl
        rw [hcce]
        have hcf : formatEnhancedNode (truncNode d (EnhancedTreeNode.node nm dir sz ccs 1))
            "" options (some d) =
            formatEnhancedNode (EnhancedTreeNode.node nm dir sz ccs 1) "" options (some d) := by
          rw [show truncNode d (EnhancedTreeNode.node nm dir sz ccs 1) =
            EnhancedTreeNode.node nm dir sz (truncE d ccs) 1 from rfl]
          rw [formatEnhancedNode_def, formatEnhancedNode_def,
            formatEnhGo_trunc d 2 ccs hdcc.children_mem]
        rw [hcf]
      · have hltb : depthLT 1 (some d) = false := by
          simp [depthLT]
          omega
        rw [hltb]
        simp only [Bool.and_false, Bool.false_eq_true, if_false]

theorem mem_truncE {d : Nat} : ∀ {cs : List EnhancedTreeNode} {c' : EnhancedTreeNode},
    c' ∈ truncE d cs → ∃ c ∈ cs, ¬ c.depth > d ∧ c' = truncNode d c := by
  intro cs
  induction cs with
  | nil => intro c' h; cases h
  | cons c rest ih =>
    intro c' h
    rcases List.mem_append.1 h with h | h
    · split at h
      · cases h
      · next hnot =>
        rcases List.mem_singleton.1 h with rfl
        exact ⟨c, List.mem_cons_self _ _, hnot, rfl⟩
    · rcases ih h with ⟨c0, hc0, hd0, rfl⟩
      exact ⟨c0, List.mem_cons_of_mem _ hc0, hd0, rfl⟩

/-- Every node reachable in a depth-truncated consistent tree has depth at
most the bound. -/
theorem nodeAtLE_truncE_depth_le (d : Nat) :
    ∀ (k : Nat) (cs : List EnhancedTreeNode), (∀ c ∈ cs, DC c k) →
      ∀ (p : List String) (n : EnhancedTreeNode),
        NodeAtLE (truncE d cs) p n → n.depth ≤ d := by
  have H : ∀ (b : Nat) (k : Nat) (cs : List EnhancedTreeNode), sizeOf cs ≤ b →
      (∀ c ∈ cs, DC c k) → ∀ (p : List String) (n : EnhancedTreeNode),
      NodeAtLE (truncE d cs) p n → n.depth ≤ d := by
    intro b
    induction b with
    | zero =>
      intro k cs hb hdc p n h
      cases cs with
      | nil => cases h <;> simp_all
      | cons c rest => simp at hb
    | succ b ih =>
      intro k cs hb hdc p n h
      cases h with
      | here hmem hname =>
        rcases mem_truncE hmem with ⟨c, hc, hd0, rfl⟩
        rw [truncNode_depth]
        omega
      | there hmem hname hrest =>
        rename_i c0 s0 p0
        rcases mem_truncE hmem with ⟨c, hc, hd0, rfl⟩
        cases c with
        | node nm dir sz ccs dp =>
          have hb1 : sizeOf ccs ≤ b := by
            have hsplit := List.sizeOf_lt_of_mem hc
            simp at hsplit hb ⊢
            omega
          have hdcc := hdc _ hc
          refine ih (k + 1) ccs hb1 hdcc.children_mem p0 n ?_
          rw [show (truncNode d (EnhancedTreeNode.node nm dir sz ccs dp)).children =
            truncE d ccs from rfl] at hrest
          exact hrest
  intro k cs hdc p n h
  exact H (sizeOf cs) k cs (Nat.le_refl _) hdc p n h

theorem addNestedEnhancedNode_DC :
    ∀ (parts : List String) (it : GitHubTreeItem) (options : SubTreeOptions)
      (dp k : Nat) (parent : EnhancedTreeNode),
      DC parent k → dp = k + 1 →
      DC (addNestedEnhancedNode parent parts it dp options) k := by
  intro parts
  induction parts with
  | nil => exact fun it options dp k parent h _ => h
  | cons x rest ih =>
    intro it options dp k parent hparent hdp
    by_cases hskip : (rest.isEmpty && (it.type == GitItemType.blob) &&
        !matchesExtFilter x options.fileExtFilter) = true
    · have hres : addNestedEnhancedNode parent (x :: rest) it dp options = parent := by
        simp only [addNestedEnhancedNode]
        rw [if_pos hskip]
      rw [hres]
      exact hparent
    · have hchildren :
          addNestedEnhancedNode parent (x :: rest) it dp options =
            parent.withChildren (sortEnh
              (if rest.isEmpty then
                 (if parent.children.any (fun c => c.name = x) then parent.children
                  else parent.children ++ [EnhancedTreeNode.node x
                    (!rest.isEmpty || it.type == GitItemType.tree)
                    (if !rest.isEmpty || it.type == GitItemType.tree then none else it.size)
                    [] dp])
               else
                 (if parent.children.any (fun c => c.name = x) then parent.children
                  else parent.children ++ [EnhancedTreeNode.node x
                    (!rest.isEmpty || it.type == GitItemType.tree)
                    (if !rest.isEmpty || it.type == GitItemType.tree then none else it.size)
                    [] dp]).map
                   (fun c => if c.name = x then
                      addNestedEnhancedNode (c.setDir true) rest it (dp + 1) options
                    else c))) := by
        simp only [addNestedEnhancedNode]
        rw [if_neg hskip]
      rw [hchildren]
      cases parent with
      | node pnm pdir psz pcs pdp =>
        have hpdp : pdp = k := hparent.depth_eq
        have hpcs : ∀ c ∈ pcs, DC c (k + 1) := hparent.children_mem
        refine DC.mk _ _ _ _ _ _ hpdp ?_
        intro c hc
        have hc1 := sortEnh_mem.1 hc
        have hcs1mem : ∀ c', c' ∈ (if (pcs.any fun c => decide (c.name = x)) = true then pcs
            else pcs ++ [EnhancedTreeNode.node x
              (!rest.isEmpty || it.type == GitItemType.tree)
              (if !rest.isEmpty || it.type == GitItemType.tree then none else it.size)
              [] dp]) → DC c' (k + 1) := by
          intro c' hc'
          split at hc'
          · exact hpcs c' hc'
          · rcases List.mem_append.1 hc' with hc' | hc'
            · exact hpcs c' hc'
            · rcases List.mem_singleton.1 hc' with rfl
              exact DC.mk _ _ _ _ _ _ hdp (by simp)
        split at hc1
        · exact hcs1mem c hc1
        · rcases List.mem_map.1 hc1 with ⟨c0, hc0, rfl⟩
          by_cases hcx : c0.name = x
          · rw [if_pos hcx]
            exact ih it options (dp + 1) (k + 1) (c0.setDir true)
              ((hcs1mem c0 hc0).setDir_pres true) (by omega)
          · rw [if_neg hcx]
            exact hcs1mem c0 hc0

theorem buildEnhancedTreeStep_DC (nd : String) (options : SubTreeOptions)
    (acc : List EnhancedTreeNode) (it : GitHubTreeItem)
    (h : ∀ c ∈ acc, DC c 1) :
    ∀ c ∈ buildEnhancedTreeStep nd options acc it, DC c 1 := by
  unfold buildEnhancedTreeStep
  cases hrel : relParts nd it.path with
  | none => exact h
  | some parts =>
    cases parts with
    | nil => exact h
    | cons childName rest =>
      simp only
      split
      · exact h
      · have hacc1mem : ∀ c', c' ∈ (if (acc.any fun n => decide (n.name = childName)) = true
            then acc
            else acc ++ [EnhancedTreeNode.node childName
              (!rest.isEmpty || it.type == GitItemType.tree)
              (if !rest.isEmpty || it.type == GitItemType.tree then none else it.size)
              [] 1]) → DC c' 1 := by
          intro c' hc'
          split at hc'
          · exact h c' hc'
          · rcases List.mem_append.1 hc' with hc' | hc'
            · exact h c' hc'
            · rcases List.mem_singleton.1 hc' with rfl
              exact DC.mk _ _ _ _ _ _ rfl (by simp)
        split
        · exact hacc1mem
        · intro c hc
          rcases List.mem_map.1 hc with ⟨c0, hc0, rfl⟩
          by_cases hcx : c0.name = childName
          · rw [if_pos hcx]
            exact addNestedEnhancedNode_DC rest it options 2 1 (c0.setDir true)
              ((hacc1mem c0 hc0).setDir_pres true) rfl
          · rw [if_neg hcx]
            exact hacc1mem c0 hc0

theorem buildEnhancedTree_DC (items : List GitHubTreeItem) (dirPath : String)
    (options : SubTreeOptions) :
    ∀ c ∈ (buildEnhancedTree items dirPath options).children, DC c 1 := by
  unfold buildEnhancedTree
  simp only [EnhancedTreeNode.children]
  intro c hc
  have hc' := sortEnh_mem.1 hc
  have : ∀ (l : List GitHubTreeItem) (acc : List EnhancedTreeNode),
      (∀ c ∈ acc, DC c 1) →
      ∀ c ∈ l.foldl (buildEnhancedTreeStep (normalizePath dirPath) options) acc, DC c 1 := by
    intro l
    induction l with
    | nil => exact fun acc h => h
    | cons it l ih =>
      intro acc h
      exact ih _ (buildEnhancedTreeStep_DC _ options acc it h)
  exact this _ [] (by simp) c hc'

theorem formatEnhGo_nil (pfx : String) (options : SubTreeOptions) (md : Option Nat) :
    formatEnhGo [] pfx options md = [] := rfl

/-- A directory exactly at the depth bound is listed (one line), but its
children are never rendered. -/
theorem formatEnhGo_at_bound (c : EnhancedTreeNode) (pfx : String)
    (options : SubTreeOptions) (d : Nat) (h : c.depth = d) :
    formatEnhGo [c] pfx options (some d) =
      [pfx ++ "└── " ++ displayNameOf c options (some d)] := by
  rw [formatEnhGo_cons]
  rw [if_neg (by simp [depthGT, h])]
  have hlt : depthLT c.depth (some d) = false := by
    simp [depthLT, h]
  rw [hlt]
  simp [formatEnhGo_nil]

theorem strEndsWith_append (a y : String) : strEndsWith (a ++ y) y = true := by
  unfold strEndsWith
  rw [String.data_append]
  simp

theorem joinCommaSep_cons_ne (s : String) {rest : List String} (h : rest ≠ []) :
    joinCommaSep (s :: rest) = s ++ ", " ++ joinCommaSep rest := by
  cases rest with
  | nil => exact absurd rfl h
  | cons r rs => rfl

theorem joinCommaSep_snoc : ∀ (xs : List String) (y : String),
    ∃ a, joinCommaSep (xs ++ [y]) = a ++ y := by
  intro xs
  induction xs with
  | nil =>
    intro y
    refine ⟨"", ?_⟩
    show y = "" ++ y
    apply String.ext
    simp
  | cons x xs ih =>
    intro y
    rcases ih y with ⟨a, ha⟩
    refine ⟨x ++ ", " ++ a, ?_⟩
    rw [List.cons_append, joinCommaSep_cons_ne x (by simp), ha]
    simp [String.append_assoc]

theorem formatStats_endsWith_depth (stats : TreeStats) (N : Nat)
    (h : stats.depthLimited = some N) :
    ∃ a, formatStats stats =
      a ++ ("(depth limited to " ++ toString N ++ ")") := by
  unfold formatStats
  rw [h]
  rw [show (["📊 Summary: " ++ toString stats.totalDirs ++ " " ++
        (if stats.totalDirs = 1 then "directory" else "directories"),
      toString stats.totalFiles ++ " " ++
        (if stats.totalFiles = 1 then "file" else "files")] ++
     (if stats.totalSize > 0 then [formatSize stats.totalSize ++ " total"] else []) ++
     (match stats.filteredExtensions with
      | some exts => if !exts.isEmpty then ["(filtered: " ++ joinCommaSep exts ++ ")"] else []
      | none => []) ++
     ["(depth limited to " ++ toString N ++ ")"]) =
    ((["📊 Summary: " ++ toString stats.totalDirs ++ " " ++
        (if stats.totalDirs = 1 then "directory" else "directories"),
      toString stats.totalFiles ++ " " ++
        (if stats.totalFiles = 1 then "file" else "files")] ++
     (if stats.totalSize > 0 then [formatSize stats.totalSize ++ " total"] else []) ++
     (match stats.filteredExtensions with
      | some exts => if !exts.isEmpty then ["(filtered: " ++ joinCommaSep exts ++ ")"] else []
      | none => [])) ++
     ["(depth limited to " ++ toString N ++ ")"]) from by simp]
  exact joinCommaSep_snoc _ _

/-- C4: with a positive depth bound `d`, nodes of depth `> d` (and their
entire subtrees) influence neither the rendered body nor any statistic: the
root-level rendering and the statistics computed on the depth-truncated tree
(which provably contains only nodes of depth `≤ d`) coincide with the actual
ones, and the inline per-directory annotations agree as well; a directory
exactly at depth `d` is rendered as a single line without its children; when
the summary is shown it ends with the `(depth limited to d)` echo; and on the
concrete nesting `a/b/c.ts` with `maxDepth = 1`, only `a/` is rendered. -/
theorem claim4_depth_cutoff (items : List GitHubTreeItem) (dirPath : String)
    (options : SubTreeOptions) (d : Nat) (hd : options.maxDepth = some d) (hpos : 0 < d) :
    (joinNL (formatSubTreeRootLines
        (buildEnhancedTree items dirPath options).children options options.maxDepth) =
      joinNL (formatSubTreeRootLines
        (truncE d (buildEnhancedTree items dirPath options).children)
        options options.maxDepth)) ∧
    (calculateStats (buildEnhancedTree items dirPath options) options =
      calculateStats ((buildEnhancedTree items dirPath options).withChildren
        (truncE d (buildEnhancedTree items dirPath options).children)) options) ∧
    (∀ c ∈ (buildEnhancedTree items dirPath options).children,
      calculateDirSize c (some d) = calculateDirSize (truncNode d c) (some d) ∧
      countDirFiles c (some d) = countDirFiles (truncNode d c) (some d)) ∧
    (∀ (p : List String) (n : EnhancedTreeNode),
      NodeAtLE (truncE d (buildEnhancedTree items dirPath options).children) p n →
        n.depth ≤ d) ∧
    (∀ (c : EnhancedTreeNode) (pfx : String), c.depth = d →
      formatEnhGo [c] pfx options (some d) =
        [pfx ++ "└── " ++ displayNameOf c options (some d)]) ∧
    ((buildEnhancedTree items dirPath options).children.isEmpty = false →
      options.showStats ≠ some false →
      strEndsWith (formatSubTree ⟨items⟩ dirPath options)
        ("(depth limited to " ++ toString d ++ ")") = true) ∧
    (formatSubTree ⟨[⟨"a/b/c.ts", GitItemType.blob, some 500⟩]⟩ ""
        ⟨none, some 1, none, none⟩ =
      "a/\n\n📊 Summary: 1 directory, 0 files, (depth limited to 1)") := by
  have hdc := buildEnhancedTree_DC items dirPath options
  refine ⟨?_, ?_, ?_, ?_, ?_, ?_, by decide⟩
  · rw [hd, formatSubTreeRootLines_trunc d hpos _ hdc options]
  · have hnode : ∀ (t : EnhancedTreeNode) (X : List EnhancedTreeNode)
        (md : Option Nat) (acc : Nat × Nat × Nat),
        calcStatsNode (t.withChildren X) md acc = calcStatsGo X md acc := by
      intro t X md acc
      cases t
      rfl
    have hnode2 : ∀ (t : EnhancedTreeNode) (md : Option Nat) (acc : Nat × Nat × Nat),
        calcStatsNode t md acc = calcStatsGo t.children md acc := by
      intro t md acc
      cases t
      rfl
    unfold calculateStats
    rw [hnode, hnode2, hd, calcStatsGo_trunc d 1 _ hdc]
  · intro c hc
    have hdcc := hdc c hc
    constructor
    · cases c with
      | node nm dir sz ccs dp =>
        show dirSizeGo ccs (some d) = dirSizeGo (truncE d ccs) (some d)
        exact (dirSizeGo_trunc d 2 ccs hdcc.children_mem).symm
    · cases c with
      | node nm dir sz ccs dp =>
        show countFilesGo ccs (some d) = countFilesGo (truncE d ccs) (some d)
        exact (countFilesGo_trunc d 2 ccs hdcc.children_mem).symm
  · exact nodeAtLE_truncE_depth_le d 1 _ hdc
  · exact fun c pfx h => formatEnhGo_at_bound c pfx options d h
  · intro hne hss
    have hitems : ¬ (⟨items⟩ : GitHubTreeResponse).tree.isEmpty = true := by
      intro hEq
      rcases List.isEmpty_iff.1 hEq with hnil
      have hnil' : items = [] := hnil
      rw [hnil'] at hne
      have : (buildEnhancedTree [] dirPath options).children = [] := rfl
      rw [this] at hne
      simp at hne
    have hbody : formatSubTree ⟨items⟩ dirPath options =
        joinNL (formatSubTreeRootLines
            (buildEnhancedTree items dirPath options).children options options.maxDepth) ++
          "\n\n" ++
          formatStats (calculateStats (buildEnhancedTree items dirPath options) options) := by
      unfold formatSubTree
      rw [if_neg hitems]
      dsimp only
      rw [if_neg (by rw [hne]; simp), if_pos hss]
    have hdl : (calculateStats (buildEnhancedTree items dirPath options)
        options).depthLimited = some d := by
      unfold calculateStats
      exact hd
    rcases formatStats_endsWith_depth _ d hdl with ⟨a, ha⟩
    rw [hbody, ha, ← String.append_assoc]
    exact strEndsWith_append _ _

/-- Closed witness for C4 at the `a/b/c.ts` nesting with `maxDepth = 1`: the
summary of the rendered output ends with the depth echo. -/
theorem claim4_depth_cutoff_witness :
    strEndsWith (formatSubTree ⟨[⟨"a/b/c.ts", GitItemType.blob, some 500⟩]⟩ ""
      ⟨none, some 1, none, none⟩) ("(depth limited to " ++ toString 1 ++ ")") = true :=
  (claim4_depth_cutoff [⟨"a/b/c.ts", GitItemType.blob, some 500⟩] ""
    ⟨none, some 1, none, none⟩ 1 rfl (by decide)).2.2.2.2.2.1 (by decide) (by decide)
